import Mathlib

/-
Verification development for the pure edit engine of the markdown
link/wikilink updater (src/pure-get-edits.ts).

The embedding works over `List Char` (a JS string is a sequence of code
units; we use scalar values, the standard shallow-embedding choice).
JS regular expressions are modelled by a backtracking matcher that is
exact for the engine's patterns: every quantifier in those patterns
ranges over a single character class, so a match attempt enumerates
repetition counts in JS preference order (greedy: longest first; lazy:
shortest first) and the first overall success in depth-first order is
the JS match.
-/

namespace MLU

abbrev Str := List Char

/-- Backslash character (code 92). -/
def bSlash : Char := Char.ofNat 92

/-- Double-quote character (code 34). -/
def quoteD : Char := Char.ofNat 34

/-- Single-quote character (code 39). -/
def quoteS : Char := Char.ofNat 39

/-- The JS regex `\s` class (ECMAScript WhiteSpace ∪ LineTerminator). -/
def jsWhitespace (c : Char) : Bool :=
  c = ' ' || c = '\t' || c = '\n' || c = '\r' || c = '\x0b' || c = '\x0c' ||
  c = ' ' || c = ' ' || (' ' ≤ c && c ≤ ' ') ||
  c = ' ' || c = ' ' || c = ' ' || c = ' ' ||
  c = '　' || c = '﻿'

/-- The JS regex `.` (without the `s` flag): any char except a line terminator. -/
def jsDot (c : Char) : Bool :=
  !(c = '\n' || c = '\r' || c = ' ' || c = ' ')

/-- The class `[^\s\/]` used by the fragment part of the link regexes. -/
def fragChar (c : Char) : Bool := !jsWhitespace c && c ≠ '/'

/-- One element of a regex pattern: a single-char class, or a repetition
(star/plus, greedy or lazy) of a single-char class.  This is exactly the
shape of every quantified subterm in the engine's four regexes. -/
inductive Piece where
  | ch (p : Char → Bool)
  | rep (p : Char → Bool) (atLeastOne : Bool) (greedy : Bool)

/-- A top-level regex item: a plain piece, a capturing group of pieces, or
an optional (`(...)?`, greedy) capturing group of pieces. -/
inductive Item where
  | simple (pc : Piece)
  | grp (ps : List Piece)
  | optGrp (ps : List Piece)

/-- Candidate repetition counts `lo..n` in ascending order. -/
def countsBetween (lo n : Nat) : List Nat :=
  (List.range (n + 1)).filter (fun k => lo ≤ k)

/-- All ways one piece can match a prefix of `s`: the possible remainders,
in JS backtracking preference order. -/
def pieceRests : Piece → Str → List Str
  | .ch _, [] => []
  | .ch p, c :: r => if p c then [r] else []
  | .rep p atLeastOne greedy, s =>
      let n := (s.takeWhile p).length
      let cands := countsBetween (if atLeastOne then 1 else 0) n
      (if greedy then cands.reverse else cands).map (fun k => s.drop k)

/-- All ways a sequence of pieces can match a prefix of `s`, remainders in
depth-first (JS backtracking) preference order. -/
def piecesRests : List Piece → Str → List Str
  | [], s => [s]
  | pc :: ps, s => (pieceRests pc s).flatMap (fun r => piecesRests ps r)

/-- Captured groups of one match, in group order; `none` for an optional
group that did not participate. -/
abbrev Caps := List (Option Str)

/-- All ways an item sequence can match a prefix of `s`; each result is the
capture list plus the remainder, in JS preference order, so the head is
the JS match at this position. -/
def itemsMatches : List Item → Str → List (Caps × Str)
  | [], s => [([], s)]
  | .simple pc :: its, s =>
      (pieceRests pc s).flatMap (fun r => itemsMatches its r)
  | .grp ps :: its, s =>
      (piecesRests ps s).flatMap (fun r =>
        (itemsMatches its r).map (fun pr =>
          (some (s.take (s.length - r.length)) :: pr.1, pr.2)))
  | .optGrp ps :: its, s =>
      ((piecesRests ps s).flatMap (fun r =>
        (itemsMatches its r).map (fun pr =>
          (some (s.take (s.length - r.length)) :: pr.1, pr.2)))) ++
      ((itemsMatches its s).map (fun pr => (none :: pr.1, pr.2)))

/-- The JS match attempt anchored at the start of `s`: consumed length and
captures of the preferred match, if any. -/
def tryAt (items : List Item) (s : Str) : Option (Nat × Caps) :=
  (itemsMatches items s).head?.map (fun pr => (s.length - pr.2.length, pr.1))

/-- Repeated `regex.exec` with the `g` flag: scan left to right, after each
match resume right after it.  `fuel` only bounds the scan; it is spent one
unit per position advanced, so `length + 1` never truncates (the engine's
patterns cannot match the empty string). -/
def findAllAux (items : List Item) : Nat → Str → Nat → List (Nat × Nat × Caps)
  | 0, _, _ => []
  | fuel + 1, s, pos =>
      match tryAt items s with
      | some (len, caps) =>
          (pos, len, caps) :: findAllAux items fuel (s.drop (max len 1)) (pos + max len 1)
      | none =>
          match s with
          | [] => []
          | _ :: r => findAllAux items (fuel) r (pos + 1)

/-- All matches of a global regex over `s`: (position, length, captures). -/
def findAll (items : List Item) (s : Str) : List (Nat × Nat × Caps) :=
  findAllAux items (s.length + 1) s 0

/-- `String.prototype.match` with a non-global regex: captures of the first
match at the leftmost matching position. -/
def firstMatchIn (items : List Item) : Str → Option Caps
  | [] => (tryAt items []).map (fun pr => pr.2)
  | c :: r =>
      match tryAt items (c :: r) with
      | some pr => some pr.2
      | none => firstMatchIn items r

/-- `windowsToPosix`: replace every backslash by a forward slash. -/
def windowsToPosix (s : Str) : Str :=
  s.map (fun c => if c = bSlash then '/' else c)

/-- `const wikilinkRegex = /(\[\[)([^\)]+?)(#[^\s\/]+)?\]\]/gm` -/
def wikilinkItems : List Item :=
  [ .grp [.ch (fun c => c = '['), .ch (fun c => c = '[')],
    .grp [.rep (fun c => c ≠ ')') true false],
    .optGrp [.ch (fun c => c = '#'), .rep fragChar true true],
    .simple (.ch (fun c => c = ']')),
    .simple (.ch (fun c => c = ']')) ]

/-- `const mdLinkRegexGlobal = /(\[[^\]]*\]\()([^\)]+?)(#[^\s\/]+)?\)/gm` -/
def mdLinkGlobalItems : List Item :=
  [ .grp [.ch (fun c => c = '['), .rep (fun c => c ≠ ']') false true,
          .ch (fun c => c = ']'), .ch (fun c => c = '(')],
    .grp [.rep (fun c => c ≠ ')') true false],
    .optGrp [.ch (fun c => c = '#'), .rep fragChar true true],
    .simple (.ch (fun c => c = ')')) ]

/-- `const imgRegex = /(<img\s[^>]*?src\s*=\s*['\"])([^'\"]*?)['\"][^>]*?>/gm` -/
def imgItems : List Item :=
  [ .grp [.ch (fun c => c = '<'), .ch (fun c => c = 'i'), .ch (fun c => c = 'm'),
          .ch (fun c => c = 'g'), .ch jsWhitespace,
          .rep (fun c => c ≠ '>') false false,
          .ch (fun c => c = 's'), .ch (fun c => c = 'r'), .ch (fun c => c = 'c'),
          .rep jsWhitespace false true, .ch (fun c => c = '='),
          .rep jsWhitespace false true,
          .ch (fun c => c = quoteS || c = quoteD)],
    .grp [.rep (fun c => c ≠ quoteS && c ≠ quoteD) false false],
    .simple (.ch (fun c => c = quoteS || c = quoteD)),
    .simple (.rep (fun c => c ≠ '>') false false),
    .simple (.ch (fun c => c = '>')) ]

/-- `const mdLinkRegex = /\[([^\]]*)\]\(([^\)]+)\)/` (non-global, save path). -/
def mdLinkSaveItems : List Item :=
  [ .simple (.ch (fun c => c = '[')),
    .grp [.rep (fun c => c ≠ ']') false true],
    .simple (.ch (fun c => c = ']')),
    .simple (.ch (fun c => c = '(')),
    .grp [.rep (fun c => c ≠ ')') true true],
    .simple (.ch (fun c => c = ')')) ]

/-- `const headingRegex = /^(#+ )(.+)/` (anchored, used on diff run values). -/
def headingItems : List Item :=
  [ .grp [.rep (fun c => c = '#') true true, .ch (fun c => c = ' ')],
    .grp [.rep jsDot true true] ]

/-- A link occurrence as produced by `getMatchingLinks`. -/
structure LinkOcc where
  target : Str
  line : Nat
  col : Nat
  replaceFileExtension : Bool
deriving DecidableEq, Repr

/-- Zero-based line of character offset `idx` (count of newlines before it),
as computed by `substring(0, index).split("\n")` in the source. -/
def lineOfIdx (content : Str) (idx : Nat) : Nat :=
  ((content.take idx).filter (fun c => c = '\n')).length

/-- Zero-based column of character offset `idx`: length of the text after
the last newline before `idx`. -/
def colOfIdx (content : Str) (idx : Nat) : Nat :=
  (((content.take idx).reverse).takeWhile (fun c => c ≠ '\n')).length

/-- Capture `i` of a match, defaulting to empty (all uses in the source are
on groups that participated). -/
def capStr (caps : Caps) (i : Nat) : Str := (caps[i]?).join.getD []

/-- `getMatchingLinks(regex, fileContent, replaceFileExtension)`: scan the
content (nothing when it is `undefined` or empty, both falsy in JS), and
for each match yield the separator-normalized target plus the line/column
of the target's start offset `match.index + prefix.length`. -/
def getMatchingLinks (items : List Item) (fileContent : Option Str)
    (replaceFileExtension : Bool) : List LinkOcc :=
  match fileContent with
  | none => []
  | some content =>
      if content.isEmpty then []
      else
        (findAll items content).map (fun m =>
          let pfx := capStr m.2.2 0
          let rawTarget := capStr m.2.2 1
          let idx := m.1 + pfx.length
          { target := windowsToPosix rawTarget
            line := lineOfIdx content idx
            col := colOfIdx content idx
            replaceFileExtension := replaceFileExtension })

/-- `getAllLinks`: inline links, then `<img>` references, then wikilinks.
The source passes `replaceFileExtension = true` for the first two families
and `false` for wikilinks. -/
def getAllLinks (fileContent : Option Str) : List LinkOcc :=
  getMatchingLinks mdLinkGlobalItems fileContent true ++
  getMatchingLinks imgItems fileContent true ++
  getMatchingLinks wikilinkItems fileContent false

/-! ### Node `path.posix` primitives

Faithful ports of the Node.js posix path algebra used by the engine:
`normalize`, `join`, `dirname`, `resolve`, `relative`.  `resolve` (and
hence `relative`) consults the process working directory when an argument
is not absolute; the embedding threads it explicitly as `cwd`. -/

/-- Generic split on a separator character (JS `String.prototype.split`). -/
def splitOnChar (sep : Char) : Str → List Str
  | [] => [[]]
  | c :: r =>
      let rest := splitOnChar sep r
      if c = sep then [] :: rest
      else
        match rest with
        | [] => [[c]]
        | seg :: segs => (c :: seg) :: segs

/-- Split a path into `'/'`-separated segments (empty segments included,
as `String.prototype.split` would produce). -/
def splitSegs : Str → List Str := splitOnChar '/'

/-- Join segments with `'/'`. -/
def joinSegs : List Str → Str
  | [] => []
  | [seg] => seg
  | seg :: segs => seg ++ '/' :: joinSegs segs

/-- One iteration of Node `normalizeString`'s loop: skip empty and `.`
segments, let `..` pop the last real segment (kept at the front for
relative paths, discarded for absolute ones), push everything else. -/
def normStep (allowAboveRoot : Bool) (acc : List Str) (seg : Str) : List Str :=
  if seg = [] ∨ seg = ['.'] then acc
  else if seg = ['.', '.'] then
    match acc.getLast? with
    | some last =>
        if last = ['.', '.'] then
          if allowAboveRoot then acc ++ [seg] else acc
        else acc.dropLast
    | none => if allowAboveRoot then [seg] else acc
  else acc ++ [seg]

/-- Node `normalizeString`: resolve `.` and `..` segments, dropping empty
segments.  With `allowAboveRoot` (relative paths) surplus `..` segments are
kept at the front; without it (absolute paths) they are discarded. -/
def normSegs (allowAboveRoot : Bool) (segs : List Str) : List Str :=
  segs.foldl (normStep allowAboveRoot) []

/-- Reassemble a normalized segment list: re-prepend the root marker,
re-append the trailing separator, and fall back to `/`, `./` or `.` when
no segments survive (the tail of Node `path.posix.normalize`). -/
def renderPath (isAbs trail : Bool) (segs : List Str) : Str :=
  let body := joinSegs segs
  if body = [] then
    if isAbs then ['/'] else if trail then ['.', '/'] else ['.']
  else
    (if isAbs then '/' :: body else body) ++ (if trail then ['/'] else [])

/-- Node `path.posix.normalize`. -/
def posixNormalize (p : Str) : Str :=
  if p = [] then ['.']
  else
    let isAbs : Bool := decide (p.head? = some '/')
    let trail : Bool := decide (p.getLast? = some '/')
    renderPath isAbs trail (normSegs (!isAbs) (splitSegs p))

/-- Node `path.posix.join` with two arguments. -/
def posixJoin (a b : Str) : Str :=
  if a = [] ∧ b = [] then ['.']
  else if a = [] then posixNormalize b
  else if b = [] then posixNormalize a
  else posixNormalize (a ++ '/' :: b)

/-- Node `path.posix.dirname`: strip trailing separators, then everything
from the last separator on; `.` when there is none. -/
def posixDirname (p : Str) : Str :=
  if p = [] then ['.']
  else
    let hasRoot := p.head? = some '/'
    let rev := (p.drop 1).reverse
    let rev2 := rev.dropWhile (fun c => c = '/')
    let rev3 := rev2.dropWhile (fun c => c ≠ '/')
    match rev3 with
    | [] => if hasRoot then ['/'] else ['.']
    | _ :: rev4 =>
        if hasRoot ∧ rev4 = [] then ['/', '/']
        else p.take (1 + rev4.length)

/-- Node `path.posix.resolve` of a single argument against an absolute
working directory `cwd`: the canonical absolute form (no trailing slash,
no `.`/`..` segments). -/
def posixResolve (cwd p : Str) : Str :=
  let full := if p.head? = some '/' then p else cwd ++ '/' :: p
  '/' :: joinSegs (normSegs false (splitSegs full))

/-- Length of the longest common segment run of two segment lists. -/
def commonSegs : List Str → List Str → Nat
  | a :: as, b :: bs => if a = b then commonSegs as bs + 1 else 0
  | _, _ => 0

/-- Node `path.posix.relative`: resolve both paths against `cwd`, drop the
common segment run, climb with `..` for each remaining `from` segment,
then descend into the remaining `to` segments. -/
def posixRelative (cwd f t : Str) : Str :=
  if f = t then []
  else
    let fR := posixResolve cwd f
    let tR := posixResolve cwd t
    if fR = tR then []
    else
      let fs := (splitSegs fR).filter (fun seg => seg ≠ [])
      let ts := (splitSegs tR).filter (fun seg => seg ≠ [])
      let c := commonSegs fs ts
      joinSegs (List.replicate (fs.length - c) ['.', '.'] ++ ts.drop c)

/-- JS `String.prototype.includes` on char lists. -/
def containsSub (s sub : Str) : Bool := decide (sub <:+: s)

/-- JS `slice(0, -3)`: drop the last three characters (empty when shorter). -/
def dropLast3 (s : Str) : Str := s.take (s.length - 3)

/-- JS `startsWith` on char lists. -/
def startsWithStr (s pre : Str) : Bool := decide (pre <+: s)

/-! ### Data model -/

/-- One tracked document (an element of the source's `FileList`). -/
structure Doc where
  path : Str
  content : Str
deriving DecidableEq, Repr

/-- A zero-based line/character position. -/
structure TextPos where
  line : Nat
  character : Nat
deriving DecidableEq, Repr

/-- A text range; `stop` embeds the source's `end` field (a Lean keyword). -/
structure TextRange where
  start : TextPos
  stop : TextPos
deriving DecidableEq, Repr

/-- An edit record as yielded by the engine. -/
structure Edit where
  path : Str
  range : TextRange
  newText : Str
  requiresPathToExist : Option Str
deriving DecidableEq, Repr

/-- Engine options; `includeGlobs`/`excludeGlobs` embed the source's
`include`/`exclude` fields (`include` is a Lean keyword), with the `= []`
destructuring defaults applied. -/
structure Options where
  excludeGlobs : List Str
  includeGlobs : List Str
  workspacePath : Option Str

/-- The two change events dispatched by `pureGetEdits`. -/
inductive ChangeEvent where
  | rename (pathBefore pathAfter : Str)
  | save (path contentBefore contentAfter : Str)

/-- Ambient JS facilities the engine calls but does not define: the
`minimatch` glob matcher (external package) and the process working
directory consulted by `path.posix.relative`/`resolve`. -/
structure JsEnv where
  minimatch : Str → Str → Bool
  cwd : Str

/-- The range of the edit built at every rename yield site: from the
occurrence's `(line, col)` to `(line, col + target.length)`. -/
def occRange (occ : LinkOcc) : TextRange :=
  ⟨⟨occ.line, occ.col⟩, ⟨occ.line, occ.col + occ.target.length⟩⟩

/-- The literal `.md` suffix the engine hard-codes. -/
def mdExt : Str := ['.', 'm', 'd']

/-! ### Rename handling -/

/-- The `shouldIncludePath` closure of `handleRenameEvent`. -/
def shouldIncludePath (env : JsEnv) (opts : Options) (filePath : Str) : Bool :=
  let relativePath := posixRelative env.cwd (opts.workspacePath.getD []) filePath
  let matchesIncludeList := opts.includeGlobs.any (fun pat => env.minimatch relativePath pat)
  if matchesIncludeList then true
  else if 0 < opts.includeGlobs.length then false
  else !(opts.excludeGlobs.any (fun pat => env.minimatch relativePath pat))

/-- Phase (a) of `handleRenameEvent`: rebase the moved document's own
references (the first `for` loop, source lines 95-126).  `files` is the
already separator-normalized and glob-filtered file list. -/
def rebaseEdits (env : JsEnv) (pathBefore pathAfter : Str) (files : List Doc) : List Edit :=
  let fileContent := (files.find? (fun f => posixNormalize f.path = pathAfter)).map Doc.content
  (getAllLinks fileContent).filterMap (fun occ =>
    let absoluteTarget := posixJoin (posixDirname pathBefore) occ.target
    let newLink := posixNormalize (posixRelative env.cwd (posixDirname pathAfter) absoluteTarget)
    if posixNormalize occ.target = newLink then none
    else some { path := pathAfter, range := occRange occ, newText := newLink,
                requiresPathToExist := some absoluteTarget })

/-- Phase (b) of `handleRenameEvent`: rewrite references to the moved file
or folder in every filtered document (the second `for` loop, source lines
128-203). -/
def repairEdits (env : JsEnv) (pathBefore pathAfter : Str) (files : List Doc) : List Edit :=
  files.flatMap (fun file =>
    (getAllLinks (some file.content)).filterMap (fun occ =>
      let absoluteTarget0 := posixNormalize (posixJoin (posixDirname file.path) occ.target)
      let absoluteTarget :=
        if !occ.replaceFileExtension ∧ !containsSub absoluteTarget0 mdExt then
          absoluteTarget0 ++ mdExt
        else absoluteTarget0
      if absoluteTarget = pathBefore then
        let newLink0 := posixNormalize (posixRelative env.cwd (posixDirname file.path) pathAfter)
        let newLink :=
          if !occ.replaceFileExtension ∧ !containsSub occ.target mdExt then dropLast3 newLink0
          else newLink0
        some { path := file.path, range := occRange occ, newText := newLink,
               requiresPathToExist := none }
      else if startsWithStr absoluteTarget (pathBefore ++ ['/']) then
        let newAbsoluteTarget := pathAfter ++ '/' :: absoluteTarget.drop (pathBefore.length + 1)
        let newLink0 := posixRelative env.cwd (posixDirname file.path) newAbsoluteTarget
        let newLink := if !occ.replaceFileExtension then dropLast3 newLink0 else newLink0
        some { path := file.path, range := occRange occ, newText := newLink,
               requiresPathToExist := some newAbsoluteTarget }
      else none))

/-- The reassignment of `markdownFiles` in `handleRenameEvent`: paths
separator-normalized, then filtered by `shouldIncludePath`. -/
def filteredDocs (env : JsEnv) (opts : Options) (markdownFiles : List Doc) : List Doc :=
  (markdownFiles.map (fun f => { f with path := windowsToPosix f.path })).filter
    (fun f => shouldIncludePath env opts f.path)

/-- `handleRenameEvent`: normalize the event paths, separator-normalize and
glob-filter the file list, bail out when `pathBefore` is not included, then
yield phase (a) followed by phase (b). -/
def handleRenameEvent (env : JsEnv) (pathBeforeRaw pathAfterRaw : Str)
    (markdownFiles : List Doc) (opts : Options) : List Edit :=
  let pathBefore := posixNormalize (windowsToPosix pathBeforeRaw)
  let pathAfter := posixNormalize (windowsToPosix pathAfterRaw)
  let files := filteredDocs env opts markdownFiles
  if !shouldIncludePath env opts pathBefore then []
  else rebaseEdits env pathBefore pathAfter files ++ repairEdits env pathBefore pathAfter files

/-! ### Save handling -/

/-- One run of the line diff, as the `diff` package reports it. -/
structure DiffChange where
  value : Str
  added : Bool
  removed : Bool
deriving DecidableEq, Repr

/-- Split into line tokens that retain their terminating newline, the
tokenization `diffLines` uses. -/
def splitLinesKeepNl : Str → List Str
  | [] => []
  | c :: r =>
      if c = '\n' then ['\n'] :: splitLinesKeepNl r
      else
        match splitLinesKeepNl r with
        | [] => [[c]]
        | l :: ls => (c :: l) :: ls

/-- Longest-common-subsequence length of two line lists, with explicit
fuel (any fuel at least the summed lengths gives the LCS length). -/
def lcsLenFuel : Nat → List Str → List Str → Nat
  | 0, _, _ => 0
  | _ + 1, [], _ => 0
  | _ + 1, _ :: _, [] => 0
  | fuel + 1, a :: as, b :: bs =>
      if a = b then lcsLenFuel fuel as bs + 1
      else max (lcsLenFuel fuel as (b :: bs)) (lcsLenFuel fuel (a :: as) bs)

/-- Longest-common-subsequence length of two line lists. -/
def lcsLen (l r : List Str) : Nat := lcsLenFuel (l.length + r.length) l r

/-- An elementary diff step on one line token. -/
inductive DiffTok where
  | keep (l : Str)
  | del (l : Str)
  | add (l : Str)

/-- LCS walk emitting kept/deleted/added line tokens, deletions before
insertions inside a replacement block; fueled like `lcsLenFuel`. -/
def diffToksFuel : Nat → List Str → List Str → List DiffTok
  | 0, _, _ => []
  | _ + 1, [], [] => []
  | fuel + 1, [], b :: bs => .add b :: diffToksFuel fuel [] bs
  | fuel + 1, a :: as, [] => .del a :: diffToksFuel fuel as []
  | fuel + 1, a :: as, b :: bs =>
      if a = b then .keep a :: diffToksFuel fuel as bs
      else if lcsLen (a :: as) bs ≤ lcsLen as (b :: bs) then
        .del a :: diffToksFuel fuel as (b :: bs)
      else .add b :: diffToksFuel fuel (a :: as) bs

/-- The LCS walk with enough fuel to finish. -/
def diffToks (l r : List Str) : List DiffTok :=
  diffToksFuel (l.length + r.length) l r

/-- Value and flags of one diff token. -/
def tokChange : DiffTok → DiffChange
  | .keep l => ⟨l, false, false⟩
  | .del l => ⟨l, false, true⟩
  | .add l => ⟨l, true, false⟩

/-- Merge adjacent same-kind tokens into runs with concatenated values. -/
def toRuns : List DiffTok → List DiffChange
  | [] => []
  | t :: ts =>
      let c := tokChange t
      match toRuns ts with
      | [] => [c]
      | r :: rs =>
          if r.added = c.added ∧ r.removed = c.removed then
            ⟨c.value ++ r.value, c.added, c.removed⟩ :: rs
          else c :: r :: rs

/-- Modelled from the spec: `diffLines` of the external `diff` package (not
part of this repository's sources).  Spec §9 contracts it as a line-level
LCS diff returning an ordered insert/delete/equal run sequence; run values
retain their line terminators. -/
def diffLines (before after : Str) : List DiffChange :=
  toRuns (diffToks (splitLinesKeepNl before) (splitLinesKeepNl after))

/-- Heading captures of a run value: `value.match(/^(#+ )(.+)/)`, giving
the `"#… "` level marker and the heading text. -/
def headCaps (v : Str) : Option (Str × Str) :=
  (tryAt headingItems v).map (fun pr => (capStr pr.2 0, capStr pr.2 1))

/-- The `renamedHeadings` computation of `handleSaveEvent` (source lines
213-247): for each run immediately followed by another, keep the pair when
the first is a removal, the second an insertion, both values match the
heading pattern, and the level markers agree; yield the heading texts. -/
def renamedHeadings (diff : List DiffChange) : List (Str × Str) :=
  (diff.zip (diff.drop 1)).filterMap (fun pr =>
    if pr.1.removed = true ∧ pr.2.added = true then
      match headCaps pr.1.value, headCaps pr.2.value with
      | some c1, some c2 => if c1.1 = c2.1 then some (c1.2, c2.2) else none
      | _, _ => none
    else none)

/-- Collapse maximal space runs into single hyphens; the flag records
whether we are inside a space run already emitted as a hyphen. -/
def collapseSpacesAux : Bool → Str → Str
  | _, [] => []
  | inRun, c :: r =>
      if c = ' ' then
        if inRun then collapseSpacesAux true r else '-' :: collapseSpacesAux true r
      else c :: collapseSpacesAux false r

/-- Collapse every maximal run of spaces into a single hyphen. -/
def collapseSpaces (s : Str) : Str := collapseSpacesAux false s

/-- Modelled from the spec: `headingToAnchor` (src/heading-to-anchor.ts is
not among the provided sources).  Spec §4.6: "lowercase, strip characters
outside [a-z0-9- ], collapse whitespace to single hyphens". -/
def headingToAnchor (heading : Str) : Str :=
  collapseSpaces ((heading.map Char.toLower).filter (fun c =>
    ('a' ≤ c && c ≤ 'z') || ('0' ≤ c && c ≤ '9') || c = '-' || c = ' '))

/-- Anchor edits one content line contributes: when the line has an inline
link whose target is `#` plus an old heading's anchor, replace the whole
line by the rebuilt link (source lines 249-278). -/
def saveEditsForLine (path : Str) (pairs : List (Str × Str)) (lineNumber : Nat)
    (line : Str) : List Edit :=
  match firstMatchIn mdLinkSaveItems line with
  | none => []
  | some caps =>
      let name := capStr caps 0
      let link := capStr caps 1
      pairs.filterMap (fun pr =>
        let oldHeaderAnchor := headingToAnchor pr.1
        let newHeaderAnchor := headingToAnchor pr.2
        if link = '#' :: oldHeaderAnchor then
          some { path := path
                 range := ⟨⟨lineNumber, 0⟩, ⟨lineNumber, line.length⟩⟩
                 newText := '[' :: name ++ ']' :: '(' :: '#' :: newHeaderAnchor ++ [')']
                 requiresPathToExist := none }
        else none)

/-- `handleSaveEvent`: heading renames from the line diff, then anchor
edits per content line (note the options' `exclude` is destructured by the
source but never used). -/
def handleSaveEvent (path contentBefore contentAfter : Str) : List Edit :=
  let pairs := renamedHeadings (diffLines contentBefore contentAfter)
  ((splitOnChar '\n' contentAfter).enum).flatMap (fun pr =>
    saveEditsForLine path pairs pr.1 pr.2)

/-- `pureGetEdits`: dispatch on the event type. -/
def pureGetEdits (env : JsEnv) (event : ChangeEvent) (markdownFiles : List Doc)
    (options : Options) : List Edit :=
  match event with
  | .save p cb ca => handleSaveEvent p cb ca
  | .rename pb pa => handleRenameEvent env pb pa markdownFiles options

/-! ### Applying edits (host side)

Modelled from the spec: the engine's consumer, not the engine, applies
edits ("applying each edit's text replacement to the live document at
`path`", spec §6); no such code is among the provided sources.  Needed to
state the spec's idempotence property. -/

/-- Character offset of a line/character position in a content string. -/
def offsetOfPos (content : Str) (p : TextPos) : Nat :=
  (((splitOnChar '\n' content).take p.line).map (fun l => l.length + 1)).sum + p.character

/-- Modelled from the spec: replace one edit's range by its new text. -/
def applyEditToContent (content : Str) (e : Edit) : Str :=
  content.take (offsetOfPos content e.range.start) ++ e.newText ++
    content.drop (offsetOfPos content e.range.stop)

/-- Modelled from the spec: apply one edit to the document it names. -/
def applyEdit (docs : List Doc) (e : Edit) : List Doc :=
  docs.map (fun d =>
    if d.path = e.path then { d with content := applyEditToContent d.content e } else d)

/-- Modelled from the spec: apply an edit list in order. -/
def applyEdits (edits : List Edit) (docs : List Doc) : List Doc :=
  edits.foldl applyEdit docs

/-! ### Spec-side comparators and helpers for the claims -/

/-- Spec-side heading decomposition of a diff-run value: the run begins
with a heading `"#"+ " " + text`, the text extending to the next line
terminator (the regex `.` class). -/
def specHeadOf (v : Str) : Option (Str × Str) :=
  let hashes := v.takeWhile (fun c => c = '#')
  let rest := v.drop hashes.length
  let text := rest.tail.takeWhile jsDot
  if hashes ≠ [] ∧ rest.head? = some ' ' ∧ text ≠ [] then
    some (hashes ++ [' '], text)
  else none

/-- Value of a run with a trailing newline stripped, last/first line. -/
def stripNl (l : Str) : Str := if l.getLast? = some '\n' then l.dropLast else l

/-- Last line of a run value (claim C4's reading for the deletion run). -/
def lastLineOf (v : Str) : Str := stripNl ((splitLinesKeepNl v).getLastD [])

/-- First line of a run value. -/
def firstLineOf (v : Str) : Str := stripNl ((splitLinesKeepNl v).headD [])

/-- Formalization of claim C4's own words (spec §4.5): pair the last line
of a deletion run with the first line of the following insertion run. -/
def specLastFirstPairs (diff : List DiffChange) : List (Str × Str) :=
  (diff.zip (diff.drop 1)).filterMap (fun pr =>
    if pr.1.removed = true ∧ pr.2.added = true then
      match specHeadOf (lastLineOf pr.1.value), specHeadOf (firstLineOf pr.2.value) with
      | some c1, some c2 => if c1.1 = c2.1 then some (c1.2, c2.2) else none
      | _, _ => none
    else none)

/-- What the code actually implements, in spec-side vocabulary: pair the
runs via the anchored heading decomposition of each whole run value, i.e.
the runs' first lines. -/
def specFirstLinePairs (diff : List DiffChange) : List (Str × Str) :=
  (diff.zip (diff.drop 1)).filterMap (fun pr =>
    if pr.1.removed = true ∧ pr.2.added = true then
      match specHeadOf pr.1.value, specHeadOf pr.2.value with
      | some c1, some c2 => if c1.1 = c2.1 then some (c1.2, c2.2) else none
      | _, _ => none
    else none)

/-- An upper bound on the number of edits one event can yield: one per
link occurrence for a rename, one per line and heading pair for a save. -/
def editBound (env : JsEnv) (event : ChangeEvent) (markdownFiles : List Doc)
    (opts : Options) : Nat :=
  match event with
  | .rename _ pa =>
      let files := filteredDocs env opts markdownFiles
      (getAllLinks ((files.find? (fun f =>
          posixNormalize f.path = posixNormalize (windowsToPosix pa))).map Doc.content)).length +
        (files.map (fun f => (getAllLinks (some f.content)).length)).sum
  | .save _ cb ca =>
      (splitOnChar '\n' ca).length * (renamedHeadings (diffLines cb ca)).length

/-- A concrete environment: a glob matcher that matches nothing and the
root working directory. -/
def envFF : JsEnv := ⟨fun _ _ => false, ['/']⟩

/-- A concrete environment whose glob matcher matches everything. -/
def envTT : JsEnv := ⟨fun _ _ => true, ['/']⟩

/-- Empty options: no exclude patterns, no include patterns, no workspace. -/
def optsNone : Options := ⟨[], [], none⟩

/-- A target carries a trailing fragment: it splits as a nonempty base,
a `'#'`, and a nonempty run of fragment characters reaching its end
(claim C7's reading of `#fragment`, the `#[^\s\/]+` class of the link
regexes). -/
def hasTrailingFrag (t : Str) : Prop :=
  ∃ a s0, t = a ++ '#' :: s0 ∧ a ≠ [] ∧ s0 ≠ [] ∧ s0.all fragChar = true

/-- An occurrence is anchored in its document: at its reported line and
column offset the content carries the raw (pre separator-normalization)
target text (claim C1's "original target substring"). -/
def occAnchored (content : Str) (occ : LinkOcc) : Prop :=
  ∃ idx raw, occ.target = windowsToPosix raw ∧
    occ.line = lineOfIdx content idx ∧ occ.col = colOfIdx content idx ∧
    (content.drop idx).take raw.length = raw

/-! ## Theorems -/

/-- Every occurrence yielded by `getMatchingLinks` carries the flag the
call passed. -/
theorem getMatchingLinks_flag (items : List Item) (c : Option Str) (b : Bool)
    (occ : LinkOcc) (h : occ ∈ getMatchingLinks items c b) :
    occ.replaceFileExtension = b := by
  cases c with
  | none => simp [getMatchingLinks] at h
  | some content =>
      simp only [getMatchingLinks] at h
      split at h
      · simp at h
      · obtain ⟨m, _, rfl⟩ := List.mem_map.mp h
        rfl

/-! ### Splitting and joining path segments -/

/-- A character split never returns the empty list. -/
theorem splitOnChar_ne_nil (sep : Char) (s : Str) : splitOnChar sep s ≠ [] := by
  cases s with
  | nil => simp [splitOnChar]
  | cons c r =>
      simp only [splitOnChar]
      by_cases hc : c = sep
      · simp [hc]
      · simp only [if_neg hc]
        rcases h : splitOnChar sep r with _ | ⟨seg, segs⟩ <;> simp

/-- Members of a character split never contain the separator. -/
theorem mem_splitOnChar_not_sep (sep : Char) (s : Str) :
    ∀ seg ∈ splitOnChar sep s, sep ∉ seg := by
  induction s with
  | nil =>
      intro seg hseg
      simp only [splitOnChar, List.mem_singleton] at hseg
      simp [hseg]
  | cons c r ih =>
      intro seg hseg
      simp only [splitOnChar] at hseg
      by_cases hc : c = sep
      · rw [if_pos hc] at hseg
        rcases List.mem_cons.mp hseg with h | h
        · simp [h]
        · exact ih seg h
      · rw [if_neg hc] at hseg
        rcases h : splitOnChar sep r with _ | ⟨seg0, segs⟩
        · exact absurd h (splitOnChar_ne_nil sep r)
        · rw [h] at hseg
          rcases List.mem_cons.mp hseg with h1 | h1
          · subst h1
            intro hmem
            rcases List.mem_cons.mp hmem with h2 | h2
            · exact hc h2.symm
            · exact ih seg0 (h ▸ List.mem_cons_self seg0 segs) h2
          · exact ih seg (h ▸ List.mem_cons_of_mem seg0 h1)

/-- Splitting separates at the first separator after a separator-free
block. -/
theorem splitOnChar_append_sep (sep : Char) (a t : Str) (ha : sep ∉ a) :
    splitOnChar sep (a ++ sep :: t) = a :: splitOnChar sep t := by
  induction a with
  | nil => simp [splitOnChar]
  | cons c a' ih =>
      have hc : ¬ c = sep := fun h => ha (h ▸ List.mem_cons_self c a')
      show splitOnChar sep (c :: (a' ++ sep :: t)) = (c :: a') :: splitOnChar sep t
      simp only [splitOnChar, if_neg hc, ih (fun hm => ha (List.mem_cons_of_mem c hm))]

/-- A separator-free string splits into itself. -/
theorem splitOnChar_no_sep (sep : Char) (s : Str) (hs : sep ∉ s) :
    splitOnChar sep s = [s] := by
  induction s with
  | nil => simp [splitOnChar]
  | cons c r ih =>
      have hc : ¬ c = sep := fun h => hs (h ▸ List.mem_cons_self c r)
      simp only [splitOnChar, if_neg hc, ih (fun hm => hs (List.mem_cons_of_mem c hm))]

/-- Splitting a join of slash-free segments with a slash-continuation. -/
theorem splitSegs_join_append (segs : List Str) (t : Str) (hne : segs ≠ [])
    (h0 : ∀ s ∈ segs, '/' ∉ s) :
    splitSegs (joinSegs segs ++ '/' :: t) = segs ++ splitSegs t := by
  induction segs with
  | nil => exact absurd rfl hne
  | cons s ss ih =>
      cases ss with
      | nil =>
          show splitOnChar '/' (s ++ '/' :: t) = s :: splitOnChar '/' t
          exact splitOnChar_append_sep '/' s t (h0 s (by simp))
      | cons s2 ss2 =>
          have hih := ih (by simp) (fun x hx => h0 x (List.mem_cons_of_mem s hx))
          show splitOnChar '/' ((s ++ '/' :: joinSegs (s2 :: ss2)) ++ '/' :: t) = _
          rw [List.append_assoc, List.cons_append,
            splitOnChar_append_sep '/' s _ (h0 s (by simp))]
          exact congrArg (s :: ·) hih

/-- Splitting inverts joining for nonempty slash-free segment lists. -/
theorem joinSegs_split (segs : List Str) (hne : segs ≠ [])
    (hs : ∀ s ∈ segs, '/' ∉ s) : splitSegs (joinSegs segs) = segs := by
  cases segs with
  | nil => exact absurd rfl hne
  | cons s ss =>
      cases ss with
      | nil => exact splitOnChar_no_sep '/' s (hs s (by simp))
      | cons s2 ss2 =>
          show splitOnChar '/' (s ++ '/' :: joinSegs (s2 :: ss2)) = _
          have h2 : splitSegs (joinSegs (s2 :: ss2)) = s2 :: ss2 :=
            joinSegs_split (s2 :: ss2) (by simp)
              (fun x hx => hs x (List.mem_cons_of_mem s hx))
          rw [splitOnChar_append_sep '/' s _ (hs s (by simp))]
          exact congrArg (s :: ·) h2

/-- Joining nonempty segments is nonempty. -/
theorem joinSegs_ne_nil (segs : List Str) (hne : segs ≠ [])
    (h0 : ∀ s ∈ segs, s ≠ []) : joinSegs segs ≠ [] := by
  cases segs with
  | nil => exact absurd rfl hne
  | cons s ss =>
      cases ss with
      | nil => exact h0 s (by simp)
      | cons s2 ss2 =>
          show s ++ '/' :: joinSegs (s2 :: ss2) ≠ []
          simp

/-- An empty join forces an empty or singleton-empty segment list. -/
theorem joinSegs_eq_nil (segs : List Str) (h : joinSegs segs = []) :
    segs = [] ∨ segs = [[]] := by
  match segs with
  | [] => exact Or.inl rfl
  | [s] => exact Or.inr (by simp [joinSegs] at h; simp [h])
  | s :: s2 :: ss => exact absurd h (by simp [joinSegs])

/-- The head of a join of nonempty slash-free segments is not a slash. -/
theorem joinSegs_head_not_slash (segs : List Str) (hne : segs ≠ [])
    (h0 : ∀ s ∈ segs, s ≠ [] ∧ '/' ∉ s) :
    ¬ (joinSegs segs).head? = some '/' := by
  cases segs with
  | nil => exact absurd rfl hne
  | cons s ss =>
      obtain ⟨hs0, hsl⟩ := h0 s (by simp)
      cases s with
      | nil => exact absurd rfl hs0
      | cons c cs =>
          have hc : ¬ c = '/' := fun h => hsl (h ▸ by simp)
          cases ss with
          | nil =>
              show ¬ ((c :: cs) : Str).head? = some '/'
              simpa using hc
          | cons s2 ss2 =>
              show ¬ ((c :: cs) ++ '/' :: joinSegs (s2 :: ss2)).head? = some '/'
              simpa using hc

/-- The last character of a join of nonempty slash-free segments is not a
slash. -/
theorem joinSegs_getLast_not_slash (segs : List Str) (hne : segs ≠ [])
    (h0 : ∀ s ∈ segs, s ≠ [] ∧ '/' ∉ s) :
    ¬ (joinSegs segs).getLast? = some '/' := by
  induction segs with
  | nil => exact absurd rfl hne
  | cons s ss ih =>
      cases ss with
      | nil =>
          obtain ⟨hs0, hsl⟩ := h0 s (by simp)
          intro hlast
          exact hsl (List.mem_of_mem_getLast? hlast)
      | cons s2 ss2 =>
          show ¬ (s ++ '/' :: joinSegs (s2 :: ss2)).getLast? = some '/'
          rw [List.getLast?_append_of_ne_nil s (by simp)]
          have hJ : joinSegs (s2 :: ss2) ≠ [] :=
            joinSegs_ne_nil _ (by simp)
              (fun x hx => (h0 x (List.mem_cons_of_mem s hx)).1)
          rcases hJe : joinSegs (s2 :: ss2) with _ | ⟨x, xs⟩
          · exact absurd hJe hJ
          · rw [List.getLast?_cons_cons]
            have hihh := ih (by simp) (fun y hy => h0 y (List.mem_cons_of_mem s hy))
            rw [hJe] at hihh
            exact hihh

/-! ### Structure of `normSegs` output -/

/-- A non-special segment is simply pushed. -/
theorem normStep_normal (a : Bool) (acc : List Str) (seg : Str)
    (h0 : seg ≠ []) (h1 : seg ≠ ['.']) (h2 : seg ≠ ['.', '.']) :
    normStep a acc seg = acc ++ [seg] := by
  simp [normStep, h0, h1, h2]

/-- Folding over non-special segments appends them all. -/
theorem foldl_normStep_normal (a : Bool) (l : List Str) (acc : List Str)
    (h : ∀ seg ∈ l, seg ≠ [] ∧ seg ≠ ['.'] ∧ seg ≠ ['.', '.']) :
    l.foldl (normStep a) acc = acc ++ l := by
  induction l generalizing acc with
  | nil => simp
  | cons s ss ih =>
      obtain ⟨h0, h1, h2⟩ := h s (by simp)
      rw [List.foldl_cons, normStep_normal a acc s h0 h1 h2,
        ih _ (fun x hx => h x (by simp [hx]))]
      simp

/-- In relative mode a `..` lands on an all-`..` accumulator by appending. -/
theorem normStep_dd_on_dd (acc : List Str)
    (hacc : ∀ s ∈ acc, s = ['.', '.']) :
    normStep true acc ['.', '.'] = acc ++ [['.', '.']] := by
  rcases hl : acc.getLast? with _ | last
  · have hnil : acc = [] := List.getLast?_eq_none.mp hl
    subst hnil
    simp [normStep]
  · have hlast : last = ['.', '.'] := hacc last (List.mem_of_mem_getLast? hl)
    simp [normStep, hl, hlast]

/-- Folding `..` segments onto an all-`..` accumulator appends them all
(relative mode). -/
theorem foldl_normStep_dd (k : Nat) (acc : List Str)
    (hacc : ∀ s ∈ acc, s = ['.', '.']) :
    (List.replicate k ['.', '.']).foldl (normStep true) acc =
      acc ++ List.replicate k ['.', '.'] := by
  induction k generalizing acc with
  | zero => simp
  | succ n ih =>
      have hacc2 : ∀ s ∈ acc ++ [['.', '.']], s = (['.', '.'] : Str) := by
        intro s hs
        rcases List.mem_append.mp hs with h | h
        · exact hacc s h
        · simpa using h
      rw [List.replicate_succ, List.foldl_cons, normStep_dd_on_dd acc hacc, ih _ hacc2,
        List.append_assoc]
      rfl

/-- A `..` pops a last segment that is not itself `..`. -/
theorem normStep_dd_pop (a : Bool) (acc : List Str) (last : Str)
    (hl : acc.getLast? = some last) (hne : last ≠ ['.', '.']) :
    normStep a acc ['.', '.'] = acc.dropLast := by
  simp [normStep, hl, hne]

/-- A `..` lands on a trailing `..` by appending (relative mode). -/
theorem normStep_dd_push (acc : List Str)
    (hl : acc.getLast? = some ['.', '.']) :
    normStep true acc ['.', '.'] = acc ++ [['.', '.']] := by
  simp [normStep, hl]

/-- Lists of the canonical shape are `normSegs` fixpoints. -/
theorem normSegs_fixpoint (a : Bool) (k : Nat) (rest : List Str)
    (hrest : ∀ s ∈ rest, s ≠ [] ∧ s ≠ ['.'] ∧ s ≠ ['.', '.'])
    (hk : a = false → k = 0) :
    normSegs a (List.replicate k ['.', '.'] ++ rest) =
      List.replicate k ['.', '.'] ++ rest := by
  cases a with
  | false =>
      have hk0 : k = 0 := hk rfl
      subst hk0
      simpa [normSegs] using foldl_normStep_normal false rest [] hrest
  | true =>
      unfold normSegs
      rw [List.foldl_append, foldl_normStep_dd k [] (by simp),
        foldl_normStep_normal true rest _ hrest]
      simp

/-- One `normStep` preserves the canonical shape. -/
theorem normStep_shape (a : Bool) (acc : List Str) (seg : Str)
    (h : ∃ k rest, acc = List.replicate k ['.', '.'] ++ rest ∧
        (∀ s ∈ rest, s ≠ [] ∧ s ≠ ['.'] ∧ s ≠ ['.', '.']) ∧ (a = false → k = 0)) :
    ∃ k rest, normStep a acc seg = List.replicate k ['.', '.'] ++ rest ∧
        (∀ s ∈ rest, s ≠ [] ∧ s ≠ ['.'] ∧ s ≠ ['.', '.']) ∧ (a = false → k = 0) := by
  obtain ⟨k, rest, hacc, hrest, hk⟩ := h
  by_cases h0 : seg = [] ∨ seg = ['.']
  · exact ⟨k, rest, by rw [normStep, if_pos h0]; exact hacc, hrest, hk⟩
  · by_cases hdd : seg = ['.', '.']
    · subst hdd
      rcases eq_or_ne rest [] with hr | hr
      · subst hr
        rw [List.append_nil] at hacc
        cases k with
        | zero =>
            rw [List.replicate_zero] at hacc
            subst hacc
            cases a with
            | false => exact ⟨0, [], by decide, by simp, fun _ => rfl⟩
            | true => exact ⟨1, [], by decide, by simp, by simp⟩
        | succ n =>
            have ha : a = true := by
              cases a with
              | false => exact absurd (hk rfl) (by simp)
              | true => rfl
            subst ha
            subst hacc
            have hl : (List.replicate (n + 1) (['.', '.'] : Str)).getLast?
                = some ['.', '.'] := by
              rw [List.replicate_succ', List.getLast?_concat]
            refine ⟨n + 2, [], ?_, by simp, by simp⟩
            rw [normStep_dd_push _ hl, List.append_nil, ← List.replicate_succ']
      · have hl : acc.getLast? = rest.getLast? := by
          rw [hacc]
          exact List.getLast?_append_of_ne_nil _ hr
        rcases hrl : rest.getLast? with _ | rl
        · exact absurd (List.getLast?_eq_none.mp hrl) hr
        · have hrlne : rl ≠ ['.', '.'] := (hrest rl (List.mem_of_mem_getLast? hrl)).2.2
          refine ⟨k, rest.dropLast, ?_,
            fun s hs => hrest s (List.mem_of_mem_dropLast hs), hk⟩
          rw [normStep_dd_pop a acc rl (hl.trans hrl) hrlne, hacc]
          exact List.dropLast_append_of_ne_nil _ hr
    · push_neg at h0
      refine ⟨k, rest ++ [seg], ?_, ?_, hk⟩
      · rw [normStep_normal a acc seg h0.1 h0.2 hdd, hacc, List.append_assoc]
      · intro s hs
        rcases List.mem_append.mp hs with h | h
        · exact hrest s h
        · rw [List.mem_singleton.mp h]
          exact ⟨h0.1, h0.2, hdd⟩

/-- The output of `normSegs` has the canonical shape: leading `..`
segments (only in relative mode) followed by ordinary segments. -/
theorem normSegs_shape (a : Bool) (segs : List Str) :
    ∃ k rest, normSegs a segs = List.replicate k ['.', '.'] ++ rest ∧
        (∀ s ∈ rest, s ≠ [] ∧ s ≠ ['.'] ∧ s ≠ ['.', '.']) ∧ (a = false → k = 0) := by
  suffices h : ∀ (l : List Str) (acc : List Str),
      (∃ k rest, acc = List.replicate k ['.', '.'] ++ rest ∧
        (∀ s ∈ rest, s ≠ [] ∧ s ≠ ['.'] ∧ s ≠ ['.', '.']) ∧ (a = false → k = 0)) →
      ∃ k rest, l.foldl (normStep a) acc = List.replicate k ['.', '.'] ++ rest ∧
        (∀ s ∈ rest, s ≠ [] ∧ s ≠ ['.'] ∧ s ≠ ['.', '.']) ∧ (a = false → k = 0) by
    exact h segs [] ⟨0, [], by simp, by simp, fun _ => rfl⟩
  intro l
  induction l with
  | nil => exact fun acc h => h
  | cons s ss ih => exact fun acc h => ih _ (normStep_shape a acc s h)

/-- One `normStep` only keeps accumulator segments or pushes the new one. -/
theorem normStep_mem (a : Bool) (acc : List Str) (seg : Str) :
    ∀ y ∈ normStep a acc seg, y ∈ acc ∨ y = seg := by
  intro y hy
  by_cases h0 : seg = [] ∨ seg = ['.']
  · rw [normStep, if_pos h0] at hy
    exact Or.inl hy
  · by_cases hdd : seg = ['.', '.']
    · rcases hl : acc.getLast? with _ | last
      · simp only [normStep, if_neg h0, if_pos hdd, hl] at hy
        split at hy
        · exact Or.inr (List.mem_singleton.mp hy)
        · exact Or.inl hy
      · by_cases hlast : last = ['.', '.']
        · simp only [normStep, if_neg h0, if_pos hdd, hl, if_pos hlast] at hy
          split at hy
          · rcases List.mem_append.mp hy with h | h
            · exact Or.inl h
            · exact Or.inr (List.mem_singleton.mp h)
          · exact Or.inl hy
        · simp only [normStep, if_neg h0, if_pos hdd, hl, if_neg hlast] at hy
          exact Or.inl (List.mem_of_mem_dropLast hy)
    · rw [normStep, if_neg h0, if_neg hdd] at hy
      rcases List.mem_append.mp hy with h | h
      · exact Or.inl h
      · exact Or.inr (List.mem_singleton.mp h)

/-- Every segment `normSegs` outputs is drawn from its input. -/
theorem normSegs_mem (a : Bool) (segs : List Str) :
    ∀ x ∈ normSegs a segs, x ∈ segs := by
  suffices h : ∀ (l : List Str) (acc : List Str),
      ∀ x ∈ l.foldl (normStep a) acc, x ∈ acc ∨ x ∈ l by
    intro x hx
    rcases h segs [] x hx with h1 | h1
    · simp at h1
    · exact h1
  intro l
  induction l with
  | nil => exact fun acc x hx => Or.inl hx
  | cons s ss ih =>
      intro acc x hx
      rcases ih (normStep a acc s) x hx with h1 | h1
      · rcases normStep_mem a acc s x h1 with h2 | h2
        · exact Or.inl h2
        · exact Or.inr (by simp [h2])
      · exact Or.inr (List.mem_cons_of_mem s h1)

/-! ### Idempotence of `posixNormalize` -/

/-- Skipping an empty segment at the front of `normSegs`. -/
theorem normSegs_cons_nil (a : Bool) (l : List Str) :
    normSegs a ([] :: l) = normSegs a l := by
  simp [normSegs, List.foldl_cons, normStep]

/-- Skipping an empty segment at the back of `normSegs`. -/
theorem normSegs_append_nil (a : Bool) (l : List Str) :
    normSegs a (l ++ [[]]) = normSegs a l := by
  simp [normSegs, List.foldl_append, normStep]

/-- A rendered path is never empty. -/
theorem renderPath_ne_nil (isAbs trail : Bool) (S : List Str) :
    renderPath isAbs trail S ≠ [] := by
  simp only [renderPath]
  rcases hb : joinSegs S with _ | ⟨c, cs⟩
  · cases isAbs <;> cases trail <;> simp
  · cases isAbs <;> cases trail <;> simp

/-- Head of a rendered nonempty canonical path: slash exactly on absolute
paths. -/
theorem renderPath_head (isAbs trail : Bool) (S : List Str) (hS : S ≠ [])
    (hmem : ∀ s ∈ S, s ≠ [] ∧ '/' ∉ s) :
    decide ((renderPath isAbs trail S).head? = some '/') = isAbs := by
  have hbody : joinSegs S ≠ [] := joinSegs_ne_nil S hS (fun s hs => (hmem s hs).1)
  have hheadn : ¬ (joinSegs S).head? = some '/' := joinSegs_head_not_slash S hS hmem
  simp only [renderPath, if_neg hbody]
  cases isAbs <;> cases trail
  · show decide ((joinSegs S ++ ([] : Str)).head? = some '/') = false
    rw [List.append_nil]
    exact decide_eq_false hheadn
  · show decide ((joinSegs S ++ ['/']).head? = some '/') = false
    rw [List.head?_append_of_ne_nil _ hbody]
    exact decide_eq_false hheadn
  · show decide ((('/' :: joinSegs S) ++ ([] : Str)).head? = some '/') = true
    simp
  · show decide ((('/' :: joinSegs S) ++ ['/']).head? = some '/') = true
    simp

/-- Last character of a rendered nonempty canonical path: slash exactly on
trailing-separator paths. -/
theorem renderPath_getLast (isAbs trail : Bool) (S : List Str) (hS : S ≠ [])
    (hmem : ∀ s ∈ S, s ≠ [] ∧ '/' ∉ s) :
    decide ((renderPath isAbs trail S).getLast? = some '/') = trail := by
  have hbody : joinSegs S ≠ [] := joinSegs_ne_nil S hS (fun s hs => (hmem s hs).1)
  have hlastn : ¬ (joinSegs S).getLast? = some '/' := joinSegs_getLast_not_slash S hS hmem
  simp only [renderPath, if_neg hbody]
  cases isAbs <;> cases trail
  · show decide ((joinSegs S ++ ([] : Str)).getLast? = some '/') = false
    rw [List.append_nil]
    exact decide_eq_false hlastn
  · show decide ((joinSegs S ++ ['/']).getLast? = some '/') = true
    rw [List.getLast?_concat]
    simp
  · show decide ((('/' :: joinSegs S) ++ ([] : Str)).getLast? = some '/') = false
    rw [List.append_nil]
    rcases hb : joinSegs S with _ | ⟨c, cs⟩
    · exact absurd hb hbody
    · rw [List.getLast?_cons_cons]
      rw [hb] at hlastn
      exact decide_eq_false hlastn
  · show decide ((('/' :: joinSegs S) ++ ['/']).getLast? = some '/') = true
    rw [List.getLast?_concat]
    simp

/-- Splitting a rendered nonempty canonical path recovers the segments,
wrapped in the empty segments that the root and trailing slash induce. -/
theorem renderPath_split (isAbs trail : Bool) (S : List Str) (hS : S ≠ [])
    (hmem : ∀ s ∈ S, s ≠ [] ∧ '/' ∉ s) :
    splitSegs (renderPath isAbs trail S) =
      (if isAbs = true then [([] : Str)] else []) ++ S ++
        (if trail = true then [([] : Str)] else []) := by
  have hbody : joinSegs S ≠ [] := joinSegs_ne_nil S hS (fun s hs => (hmem s hs).1)
  have hslash : ∀ s ∈ S, '/' ∉ s := fun s hs => (hmem s hs).2
  have hcons : ∀ (t : Str), splitSegs ('/' :: t) = [] :: splitSegs t := by
    intro t
    show splitOnChar '/' ('/' :: t) = [] :: splitOnChar '/' t
    simp [splitOnChar]
  simp only [renderPath, if_neg hbody]
  cases isAbs <;> cases trail
  · show splitSegs (joinSegs S ++ ([] : Str)) = [] ++ S ++ []
    rw [List.append_nil, joinSegs_split S hS hslash]
    simp
  · show splitSegs (joinSegs S ++ ['/']) = [] ++ S ++ [[]]
    rw [show (joinSegs S ++ ['/'] : Str) = joinSegs S ++ '/' :: [] from rfl,
      splitSegs_join_append S [] hS hslash]
    rfl
  · show splitSegs (('/' :: joinSegs S) ++ ([] : Str)) = [[]] ++ S ++ []
    rw [List.append_nil, hcons, joinSegs_split S hS hslash]
    simp
  · show splitSegs (('/' :: joinSegs S) ++ ['/']) = [[]] ++ S ++ [[]]
    rw [show ((('/' :: joinSegs S) ++ ['/']) : Str) = '/' :: (joinSegs S ++ '/' :: []) by simp,
      hcons, splitSegs_join_append S [] hS hslash]
    rfl

/-- Re-normalizing a rendered canonical path changes nothing. -/
theorem posixNormalize_render (isAbs trail : Bool) (S : List Str) (hS : S ≠ [])
    (hmem : ∀ s ∈ S, s ≠ [] ∧ '/' ∉ s)
    (hfix : normSegs (!isAbs) S = S) :
    posixNormalize (renderPath isAbs trail S) = renderPath isAbs trail S := by
  simp only [posixNormalize, if_neg (renderPath_ne_nil isAbs trail S),
    renderPath_head isAbs trail S hS hmem,
    renderPath_getLast isAbs trail S hS hmem,
    renderPath_split isAbs trail S hS hmem]
  cases isAbs <;> cases trail
  · show renderPath false false (normSegs (!false) (S ++ ([] : List Str))) =
      renderPath false false S
    rw [List.append_nil, hfix]
  · show renderPath false true (normSegs (!false) (S ++ [([] : Str)])) =
      renderPath false true S
    rw [normSegs_append_nil, hfix]
  · show renderPath true false (normSegs (!true) (([] :: S) ++ ([] : List Str))) =
      renderPath true false S
    rw [List.append_nil, normSegs_cons_nil, hfix]
  · show renderPath true true (normSegs (!true) (([] :: S) ++ [([] : Str)])) =
      renderPath true true S
    rw [normSegs_append_nil, normSegs_cons_nil, hfix]

/-- Node's `path.posix.normalize` is idempotent. -/
theorem posixNormalize_idem (p : Str) :
    posixNormalize (posixNormalize p) = posixNormalize p := by
  by_cases hp : p = []
  · subst hp
    decide
  · have hpn : posixNormalize p = renderPath (decide (p.head? = some '/'))
        (decide (p.getLast? = some '/'))
        (normSegs (!decide (p.head? = some '/')) (splitSegs p)) := by
      simp only [posixNormalize, if_neg hp]
    rw [hpn]
    obtain ⟨k, rest, hshape, hrest, hk⟩ :=
      normSegs_shape (!decide (p.head? = some '/')) (splitSegs p)
    rcases eq_or_ne (normSegs (!decide (p.head? = some '/')) (splitSegs p)) [] with hS | hS
    · rw [hS]
      have h1 : posixNormalize (renderPath true true []) = renderPath true true [] := by decide
      have h2 : posixNormalize (renderPath true false []) = renderPath true false [] := by decide
      have h3 : posixNormalize (renderPath false true []) = renderPath false true [] := by decide
      have h4 : posixNormalize (renderPath false false []) = renderPath false false [] := by
        decide
      rcases Bool.eq_false_or_eq_true (decide (p.head? = some '/')) with ha | ha <;>
        rcases Bool.eq_false_or_eq_true (decide (p.getLast? = some '/')) with ht | ht <;>
          rw [ha, ht]
      exacts [h1, h2, h3, h4]
    · refine posixNormalize_render _ _ _ hS ?_ ?_
      · intro s hs
        have hin : s ∈ splitSegs p := normSegs_mem _ _ s hs
        refine ⟨?_, mem_splitOnChar_not_sep '/' p s hin⟩
        rw [hshape] at hs
        rcases List.mem_append.mp hs with h | h
        · rw [List.eq_of_mem_replicate h]
          simp
        · exact (hrest s h).1
      · rw [hshape]
        exact normSegs_fixpoint _ k rest hrest hk

/-- C10: the save path of `pureGetEdits` depends only on the save payload:
the document set, the glob options, the glob matcher and the working
directory are all ignored. -/
theorem c10_save_independent (env1 env2 : JsEnv) (p cb ca : Str)
    (docs1 docs2 : List Doc) (opts1 opts2 : Options) :
    pureGetEdits env1 (.save p cb ca) docs1 opts1 =
      pureGetEdits env2 (.save p cb ca) docs2 opts2 := rfl

/-- C8: when `pathBefore` matches an exclude pattern (on the relative path
the filter computes) and either the include list is empty or no include
pattern matches, a rename yields no edits at all. -/
theorem c8_exclude_suppression (env : JsEnv) (opts : Options) (pb pa : Str)
    (docs : List Doc)
    (h1 : ∃ pat ∈ opts.excludeGlobs,
        env.minimatch
          (posixRelative env.cwd (opts.workspacePath.getD [])
            (posixNormalize (windowsToPosix pb))) pat = true)
    (h2 : opts.includeGlobs = [] ∨
        ∀ pat ∈ opts.includeGlobs,
          env.minimatch
            (posixRelative env.cwd (opts.workspacePath.getD [])
              (posixNormalize (windowsToPosix pb))) pat = false) :
    pureGetEdits env (.rename pb pa) docs opts = [] := by
  have hfalse : shouldIncludePath env opts (posixNormalize (windowsToPosix pb)) = false := by
    obtain ⟨pat, hmem, hpat⟩ := h1
    have hexc : opts.excludeGlobs.any
        (fun q => env.minimatch
          (posixRelative env.cwd (opts.workspacePath.getD [])
            (posixNormalize (windowsToPosix pb))) q) = true :=
      List.any_eq_true.mpr ⟨pat, hmem, hpat⟩
    rcases h2 with h2 | h2
    · simp [shouldIncludePath, h2, hexc]
    · have hinc : opts.includeGlobs.any
          (fun q => env.minimatch
            (posixRelative env.cwd (opts.workspacePath.getD [])
              (posixNormalize (windowsToPosix pb))) q) = false :=
        List.any_eq_false.mpr (fun q hq => by simp [h2 q hq])
      rcases Nat.eq_zero_or_pos opts.includeGlobs.length with hlen | hlen
      · simp [shouldIncludePath, hinc, hlen, hexc]
      · simp [shouldIncludePath, hinc, hlen]
  show handleRenameEvent env pb pa docs opts = []
  unfold handleRenameEvent
  simp [hfalse]

/-- C8 witness: a concrete excluded rename produces no edits even though a
document references the moved file. -/
theorem c8_exclude_suppression_witness :
    (∃ pat ∈ (⟨["**".data], [], none⟩ : Options).excludeGlobs,
        envTT.minimatch
          (posixRelative envTT.cwd ((⟨["**".data], [], none⟩ : Options).workspacePath.getD [])
            (posixNormalize (windowsToPosix "folder/a.md".data))) pat = true) ∧
    pureGetEdits envTT (.rename "folder/a.md".data "folder/b.md".data)
      [⟨"d.md".data, "[x](folder/a.md)".data⟩] ⟨["**".data], [], none⟩ = [] :=
  ⟨by decide,
   c8_exclude_suppression envTT ⟨["**".data], [], none⟩ "folder/a.md".data
     "folder/b.md".data [⟨"d.md".data, "[x](folder/a.md)".data⟩]
     (by decide) (Or.inl rfl)⟩

/-- C5 counterexample: moving `/p/q/doc.md` to `/b/doc.md` rebases the
moved document's link `n.md` to `../p/q/n.md`; a second identical run
re-resolves that already-rebased link against the old directory and yields
a further (wrong) edit, so the engine is not idempotent. -/
theorem c5_counterexample :
    pureGetEdits envFF (.rename "/p/q/doc.md".data "/b/doc.md".data)
        [⟨"/b/doc.md".data, "[x](n.md)".data⟩] optsNone =
      [{ path := "/b/doc.md".data, range := ⟨⟨0, 4⟩, ⟨0, 8⟩⟩,
         newText := "../p/q/n.md".data, requiresPathToExist := some "/p/q/n.md".data }] ∧
    pureGetEdits envFF (.rename "/p/q/doc.md".data "/b/doc.md".data)
        (applyEdits
          (pureGetEdits envFF (.rename "/p/q/doc.md".data "/b/doc.md".data)
            [⟨"/b/doc.md".data, "[x](n.md)".data⟩] optsNone)
          [⟨"/b/doc.md".data, "[x](n.md)".data⟩]) optsNone =
      [{ path := "/b/doc.md".data, range := ⟨⟨0, 4⟩, ⟨0, 15⟩⟩,
         newText := "../p/p/q/n.md".data, requiresPathToExist := some "/p/p/q/n.md".data }] := by
  constructor <;> decide

/-- C5 (amended): the engine is a pure function, so whenever the first run
yields no edits the document set is unchanged and a second identical run
yields none either; unconditional idempotence fails (see the
counterexample). -/
theorem c5_amended_fixpoint (env : JsEnv) (pb pa : Str) (docs : List Doc)
    (opts : Options)
    (h : pureGetEdits env (.rename pb pa) docs opts = []) :
    pureGetEdits env (.rename pb pa)
      (applyEdits (pureGetEdits env (.rename pb pa) docs opts) docs) opts = [] := by
  rw [h]
  exact h

/-- C5 witness: on a document set the rename does not touch, both runs
yield nothing. -/
theorem c5_amended_fixpoint_witness :
    pureGetEdits envFF (.rename "a.md".data "b.md".data)
        [⟨"d.md".data, "[x](other.md)".data⟩] optsNone = [] ∧
    pureGetEdits envFF (.rename "a.md".data "b.md".data)
      (applyEdits
        (pureGetEdits envFF (.rename "a.md".data "b.md".data)
          [⟨"d.md".data, "[x](other.md)".data⟩] optsNone)
        [⟨"d.md".data, "[x](other.md)".data⟩]) optsNone = [] :=
  ⟨by decide,
   c5_amended_fixpoint envFF "a.md".data "b.md".data
     [⟨"d.md".data, "[x](other.md)".data⟩] optsNone (by decide)⟩

/-- C3 counterexample: on `[x](a.md) [[w]]` the inline occurrence carries
`replaceFileExtension = true` and the wikilink occurrence carries `false`,
the reverse of the claimed flag assignment. -/
theorem c3_counterexample :
    (getAllLinks (some "[x](a.md) [[w]]".data)).map
        (fun occ => (occ.target, occ.replaceFileExtension)) =
      [("a.md".data, true), ("w".data, false)] := by
  decide

/-- C3 (amended): every inline-link and img occurrence carries
`replaceFileExtension = true` and every wikilink occurrence carries
`false`: an occurrence of `getAllLinks` has `replaceFileExtension = false`
exactly when it comes from the wikilink scan. -/
theorem c3_amended_flags (c : Option Str) (occ : LinkOcc)
    (h : occ ∈ getAllLinks c) :
    occ.replaceFileExtension = false ↔
      occ ∈ getMatchingLinks wikilinkItems c false := by
  constructor
  · intro hf
    rcases List.mem_append.mp h with h1 | h2
    · rcases List.mem_append.mp h1 with ha | hb
      · exact absurd (getMatchingLinks_flag _ _ _ _ ha) (by simp [hf])
      · exact absurd (getMatchingLinks_flag _ _ _ _ hb) (by simp [hf])
    · exact h2
  · intro hw
    exact getMatchingLinks_flag _ _ _ _ hw

/-- C3 witness: the wikilink occurrence of `[[w]]` instantiates the
amended flag correspondence. -/
theorem c3_amended_flags_witness :
    (⟨"w".data, 0, 2, false⟩ : LinkOcc) ∈ getAllLinks (some "[[w]]".data) ∧
    ((⟨"w".data, 0, 2, false⟩ : LinkOcc).replaceFileExtension = false ↔
      (⟨"w".data, 0, 2, false⟩ : LinkOcc) ∈
        getMatchingLinks wikilinkItems (some "[[w]]".data) false) :=
  ⟨by decide, c3_amended_flags _ _ (by decide)⟩

/-- C6 counterexample: for the rename `a.md → b.md` the moved document
itself (path `b.md`) contributes a repair-phase edit rewriting its link
`a.md`, so phase (b) is not restricted to other documents. -/
theorem c6_counterexample :
    repairEdits envFF "a.md".data "b.md".data [⟨"b.md".data, "[x](a.md)".data⟩] =
      [{ path := "b.md".data, range := ⟨⟨0, 4⟩, ⟨0, 8⟩⟩,
         newText := "b.md".data, requiresPathToExist := none }] ∧
    pureGetEdits envFF (.rename "a.md".data "b.md".data)
        [⟨"b.md".data, "[x](a.md)".data⟩] optsNone =
      [{ path := "b.md".data, range := ⟨⟨0, 4⟩, ⟨0, 8⟩⟩,
         newText := "b.md".data, requiresPathToExist := none }] := by
  constructor <;> decide

/-- C6 (amended): phase (b) produces edits for documents of the filtered
list only — but that list includes the moved document, which can therefore
contribute phase-(b) edits; every repair edit's path is the path of some
document of the list it iterates over. -/
theorem c6_amended_repair_paths (env : JsEnv) (pb pa : Str) (files : List Doc)
    (e : Edit) (h : e ∈ repairEdits env pb pa files) :
    ∃ f ∈ files, e.path = f.path := by
  obtain ⟨f, hf, he⟩ := List.mem_flatMap.mp h
  refine ⟨f, hf, ?_⟩
  obtain ⟨occ, _, heq⟩ := List.mem_filterMap.mp he
  dsimp only at heq
  by_cases h1 :
      (if (!occ.replaceFileExtension) = true ∧
          (!containsSub (posixNormalize (posixJoin (posixDirname f.path) occ.target)) mdExt) = true
        then posixNormalize (posixJoin (posixDirname f.path) occ.target) ++ mdExt
        else posixNormalize (posixJoin (posixDirname f.path) occ.target)) = pb
  · rw [if_pos h1] at heq
    exact (Option.some_inj.mp heq) ▸ rfl
  · rw [if_neg h1] at heq
    by_cases h2 :
        startsWithStr
          (if (!occ.replaceFileExtension) = true ∧
              (!containsSub (posixNormalize (posixJoin (posixDirname f.path) occ.target)) mdExt) = true
            then posixNormalize (posixJoin (posixDirname f.path) occ.target) ++ mdExt
            else posixNormalize (posixJoin (posixDirname f.path) occ.target)) (pb ++ ['/']) = true
    · rw [if_pos h2] at heq
      exact (Option.some_inj.mp heq) ▸ rfl
    · rw [if_neg h2] at heq
      exact Option.noConfusion heq

/-- C6 witness: the moved document's own repair edit instantiates the
amended path property. -/
theorem c6_amended_repair_paths_witness :
    ({ path := "b.md".data, range := ⟨⟨0, 4⟩, ⟨0, 8⟩⟩,
       newText := "b.md".data, requiresPathToExist := none } : Edit) ∈
      repairEdits envFF "a.md".data "b.md".data [⟨"b.md".data, "[x](a.md)".data⟩] ∧
    ∃ f ∈ [(⟨"b.md".data, "[x](a.md)".data⟩ : Doc)],
      ({ path := "b.md".data, range := ⟨⟨0, 4⟩, ⟨0, 8⟩⟩,
         newText := "b.md".data, requiresPathToExist := none } : Edit).path = f.path :=
  ⟨by decide,
   c6_amended_repair_paths envFF "a.md".data "b.md".data
     [⟨"b.md".data, "[x](a.md)".data⟩] _ (by decide)⟩

/-- C2 counterexample: a rename whose normalized before/after paths
coincide makes phase (b) yield an edit whose new text `a.md` is exactly
the text already in its range (columns 4-8 of `[x](a.md)`). -/
theorem c2_counterexample :
    pureGetEdits envFF (.rename "a.md".data "a.md".data)
        [⟨"d.md".data, "[x](a.md)".data⟩] optsNone =
      [{ path := "d.md".data, range := ⟨⟨0, 4⟩, ⟨0, 8⟩⟩,
         newText := "a.md".data, requiresPathToExist := none }] ∧
    ("[x](a.md)".data.drop 4).take 4 = "a.md".data := by
  constructor <;> decide

/-- C1 counterexample: a save-event anchor edit replaces the entire line
`see [see](#old-title)` — its range is `(1,0)-(1,21)` — while the only
link occurrence of that content sits at column 10 with a 10-character
target, so the range does not span the rewritten reference's target. -/
theorem c1_counterexample :
    pureGetEdits envFF
        (.save "doc.md".data "# Old Title\nx".data
          "# New Title\nsee [see](#old-title)".data) [] optsNone =
      [{ path := "doc.md".data, range := ⟨⟨1, 0⟩, ⟨1, 21⟩⟩,
         newText := "[see](#new-title)".data, requiresPathToExist := none }] ∧
    (getAllLinks (some "# New Title\nsee [see](#old-title)".data)).map
        (fun occ => (occ.line, occ.col, occ.target.length)) = [(1, 10, 10)] := by
  constructor <;> decide

/-- C7 counterexample: the img pattern has no fragment group, so the
occurrence for `<img src="a.md#x">` keeps the `#x` fragment inside its
target. -/
theorem c7_counterexample :
    (getAllLinks (some "<img src=\"a.md#x\">".data)).map (fun occ => occ.target) =
      ["a.md#x".data] ∧
    "a.md#x".data = "a.md".data ++ '#' :: "x".data ∧ fragChar 'x' = true := by
  refine ⟨by decide, rfl, by decide⟩

/-- C2 (amended): no-op suppression holds in the moved document's rebase
phase — every rebase edit's new text differs from the occurrence's
separator-normalized target, both textually and after normalization; the
repair phase has no such check and can emit textual no-ops (see the
counterexample). -/
theorem c2_amended_rebase_no_noop (env : JsEnv) (pathBefore pathAfter : Str)
    (files : List Doc) (e : Edit)
    (h : e ∈ rebaseEdits env pathBefore pathAfter files) :
    ∃ occ ∈ getAllLinks ((files.find?
        (fun f => posixNormalize f.path = pathAfter)).map Doc.content),
      e.range = occRange occ ∧ e.newText ≠ occ.target ∧
        e.newText ≠ posixNormalize occ.target := by
  obtain ⟨occ, hocc, heq⟩ := List.mem_filterMap.mp h
  dsimp only at heq
  by_cases hguard : posixNormalize occ.target =
      posixNormalize (posixRelative env.cwd (posixDirname pathAfter)
        (posixJoin (posixDirname pathBefore) occ.target))
  · rw [if_pos hguard] at heq
    exact Option.noConfusion heq
  · rw [if_neg hguard] at heq
    obtain rfl := Option.some_inj.mp heq
    refine ⟨occ, hocc, rfl, ?_, fun habs => hguard habs.symm⟩
    intro habs
    apply hguard
    conv_lhs => rw [← habs]
    exact posixNormalize_idem _

/-- C2 witness: the rebase edit of a cross-directory move instantiates the
rebase-phase no-op suppression. -/
theorem c2_amended_rebase_no_noop_witness :
    ({ path := "b/doc.md".data, range := ⟨⟨0, 4⟩, ⟨0, 8⟩⟩,
       newText := "../a/n.md".data, requiresPathToExist := some "a/n.md".data } : Edit) ∈
      rebaseEdits envFF "a/doc.md".data "b/doc.md".data
        [⟨"b/doc.md".data, "[x](n.md)".data⟩] ∧
    (∃ occ ∈ getAllLinks ((([⟨"b/doc.md".data, "[x](n.md)".data⟩] : List Doc).find?
        (fun f => posixNormalize f.path = "b/doc.md".data)).map Doc.content),
      ({ path := "b/doc.md".data, range := ⟨⟨0, 4⟩, ⟨0, 8⟩⟩,
         newText := "../a/n.md".data,
         requiresPathToExist := some "a/n.md".data } : Edit).range = occRange occ ∧
        ("../a/n.md".data : Str) ≠ occ.target ∧
        ("../a/n.md".data : Str) ≠ posixNormalize occ.target) :=
  ⟨by decide,
   c2_amended_rebase_no_noop envFF "a/doc.md".data "b/doc.md".data
     [⟨"b/doc.md".data, "[x](n.md)".data⟩] _ (by decide)⟩

/-- C9: the engine is total — a definable function returning a list — and
the list's length is bounded by one edit per link occurrence for renames
and one edit per line and heading pair for saves. -/
theorem c9_edit_count_bound (env : JsEnv) (event : ChangeEvent) (docs : List Doc)
    (opts : Options) :
    (pureGetEdits env event docs opts).length ≤ editBound env event docs opts := by
  cases event with
  | save p cb ca =>
      show (handleSaveEvent p cb ca).length ≤ _
      simp only [handleSaveEvent, editBound]
      rw [List.length_flatMap]
      have hb : ∀ x ∈ ((splitOnChar '\n' ca).enum).map
          (fun pr => ((fun pr => saveEditsForLine p
            (renamedHeadings (diffLines cb ca)) pr.1 pr.2) pr).length),
          x ≤ (renamedHeadings (diffLines cb ca)).length := by
        intro x hx
        obtain ⟨pr, _, rfl⟩ := List.mem_map.mp hx
        rcases hm : firstMatchIn mdLinkSaveItems pr.2 with _ | caps
        · simp [saveEditsForLine, hm]
        · simp only [saveEditsForLine, hm]
          exact List.length_filterMap_le _ _
      calc (((splitOnChar '\n' ca).enum).map _).sum
          ≤ (((splitOnChar '\n' ca).enum).map _).length •
              (renamedHeadings (diffLines cb ca)).length :=
            List.sum_le_card_nsmul _ _ hb
        _ = (splitOnChar '\n' ca).length * (renamedHeadings (diffLines cb ca)).length := by
            rw [List.length_map, List.enum_length, smul_eq_mul]
  | rename pb pa =>
      show (handleRenameEvent env pb pa docs opts).length ≤ _
      simp only [handleRenameEvent, editBound]
      split
      · simp
      · rw [List.length_append]
        refine Nat.add_le_add ?_ ?_
        · simp only [rebaseEdits]
          exact List.length_filterMap_le _ _
        · simp only [repairEdits]
          rw [List.length_flatMap]
          refine List.sum_le_sum ?_
          intro f _
          exact List.length_filterMap_le _ _

/-- C4 counterexample: in the diff of `x\n# Old\nz` against `# New\ny\nz`
the deletion run's last line `# Old` and the insertion run's first line
`# New` are same-level headings, so the claim requires the pair
`(Old, New)`; the code matches the anchored heading pattern against the
whole run value, which fails on `x\n# Old\n`, and emits nothing. -/
theorem c4_counterexample :
    diffLines "x\n# Old\nz".data "# New\ny\nz".data =
      [⟨"x\n# Old\n".data, false, true⟩, ⟨"# New\ny\n".data, true, false⟩,
       ⟨"z".data, false, false⟩] ∧
    specLastFirstPairs (diffLines "x\n# Old\nz".data "# New\ny\nz".data) =
      [("Old".data, "New".data)] ∧
    renamedHeadings (diffLines "x\n# Old\nz".data "# New\ny\nz".data) = [] := by
  refine ⟨by decide, by decide, by decide⟩

/-! ### Matching-engine toolkit -/

/-- Membership in the candidate-count list. -/
theorem mem_countsBetween (lo n k : Nat) :
    k ∈ countsBetween lo n ↔ lo ≤ k ∧ k ≤ n := by
  constructor
  · intro h
    simp only [countsBetween, List.mem_filter, List.mem_range, decide_eq_true_eq] at h
    omega
  · intro h
    simp only [countsBetween, List.mem_filter, List.mem_range, decide_eq_true_eq]
    omega

/-- Extending the candidate range by one. -/
theorem countsBetween_succ (lo n : Nat) (h : lo ≤ n + 1) :
    countsBetween lo (n + 1) = countsBetween lo n ++ [n + 1] := by
  show (List.range (n + 2)).filter _ = _
  rw [List.range_succ, List.filter_append]
  congr 1
  simp [h]

/-- The candidate counts from one are exactly `[1, …, m]`. -/
theorem countsBetween_one_eq_range' (m : Nat) :
    countsBetween 1 m = List.range' 1 m := by
  induction m with
  | zero => decide
  | succ n ih =>
      rw [countsBetween_succ 1 n (by omega), ih, List.range'_concat]
      simp [Nat.add_comm]

/-- The head of a `flatMap` comes from the first list element whose image
is nonempty. -/
theorem head?_flatMap_split {α β : Type} (l : List α) (f : α → List β) (x : β)
    (h : (l.flatMap f).head? = some x) :
    ∃ pre c post, l = pre ++ c :: post ∧ (∀ b ∈ pre, f b = []) ∧
      (f c).head? = some x := by
  induction l with
  | nil => simp at h
  | cons c cs ih =>
      rw [List.flatMap_cons, List.head?_append] at h
      rcases hfc : (f c).head? with _ | y
      · rw [hfc, Option.none_or] at h
        obtain ⟨pre, c', post, hl, hpre, hc⟩ := ih h
        refine ⟨c :: pre, c', post, by rw [hl]; rfl, ?_, hc⟩
        intro b hb
        rcases List.mem_cons.mp hb with rfl | hb2
        · exact List.head?_eq_none_iff.mp hfc
        · exact hpre b hb2
      · rw [hfc] at h
        exact ⟨[], c, cs, rfl, by simp, by rw [hfc]; exact h⟩

/-- Minimality of a lazy quantifier: when the head of the concatenated
attempts over counts `1..m` exists, it comes from the least succeeding
count. -/
theorem lazy_flatMap_min {β : Type} (f : Nat → List β) (m : Nat) (x : β)
    (h : ((countsBetween 1 m).flatMap f).head? = some x) :
    ∃ t, 1 ≤ t ∧ t ≤ m ∧ (f t).head? = some x ∧
      ∀ t', 1 ≤ t' → t' < t → f t' = [] := by
  obtain ⟨pre, c, post, hl, hpre, hc⟩ := head?_flatMap_split _ f x h
  have hlen : (countsBetween 1 m).length = m := by
    rw [countsBetween_one_eq_range', List.length_range']
  have hprelen : pre.length < m := by
    have := congrArg List.length hl
    rw [hlen] at this
    simp at this
    omega
  have hcval : c = 1 + pre.length := by
    have hg : (countsBetween 1 m)[pre.length]? = some c := by
      rw [hl, List.getElem?_append]
      simp
    rw [countsBetween_one_eq_range',
      List.getElem?_eq_getElem (by rw [List.length_range']; exact hprelen),
      List.getElem_range'] at hg
    have := Option.some_inj.mp hg
    omega
  have hcm : c ≤ m := by
    have hmem : c ∈ countsBetween 1 m := by
      rw [hl]
      simp
    exact ((mem_countsBetween 1 m c).mp hmem).2
  refine ⟨c, by omega, hcm, hc, ?_⟩
  intro t' h1 h2
  apply hpre
  have hidx : t' - 1 < pre.length := by omega
  have hval : pre[t' - 1]? = some t' := by
    have hg : (countsBetween 1 m)[t' - 1]? = pre[t' - 1]? := by
      rw [hl, List.getElem?_append]
      simp [hidx]
    rw [countsBetween_one_eq_range',
      List.getElem?_eq_getElem (by rw [List.length_range']; omega),
      List.getElem_range'] at hg
    rw [← hg]
    congr 1
    omega
  exact List.getElem?_mem hval

/-- Any remainder a piece leaves is a suffix of its input. -/
theorem pieceRests_suffix (pc : Piece) (s r : Str) (h : r ∈ pieceRests pc s) :
    r <:+ s := by
  cases pc with
  | ch p =>
      cases s with
      | nil => simp [pieceRests] at h
      | cons c cs =>
          simp only [pieceRests] at h
          split at h
          · rw [List.mem_singleton.mp h]
            exact ⟨[c], rfl⟩
          · simp at h
  | rep p m g =>
      simp only [pieceRests] at h
      obtain ⟨k, _, rfl⟩ := List.mem_map.mp h
      exact List.drop_suffix k s

/-- Any remainder a piece sequence leaves is a suffix of its input. -/
theorem piecesRests_suffix (ps : List Piece) (s r : Str)
    (h : r ∈ piecesRests ps s) : r <:+ s := by
  induction ps generalizing s with
  | nil =>
      simp only [piecesRests, List.mem_singleton] at h
      rw [h]
  | cons pc ps ih =>
      simp only [piecesRests] at h
      obtain ⟨r1, hr1, hr⟩ := List.mem_flatMap.mp h
      exact (ih r1 hr).trans (pieceRests_suffix pc s r1 hr1)

/-- Reconstruct the consumed prefix of a suffix remainder. -/
theorem take_sub_of_suffix (s r : Str) (h : r <:+ s) :
    s.take (s.length - r.length) ++ r = s := by
  obtain ⟨pre, rfl⟩ := h
  have hlen : (pre ++ r).length - r.length = pre.length := by simp
  rw [hlen, List.take_left]

/-- Characterize one capturing-group step of the matcher. -/
theorem mem_itemsMatches_grp (ps : List Piece) (its : List Item) (s : Str)
    (y : Caps × Str) :
    y ∈ itemsMatches (.grp ps :: its) s ↔
      ∃ r ∈ piecesRests ps s, ∃ z ∈ itemsMatches its r,
        y = (some (s.take (s.length - r.length)) :: z.1, z.2) := by
  simp only [itemsMatches, List.mem_flatMap, List.mem_map]
  constructor
  · rintro ⟨r, hr, z, hz, rfl⟩
    exact ⟨r, hr, z, hz, rfl⟩
  · rintro ⟨r, hr, z, hz, rfl⟩
    exact ⟨r, hr, z, hz, rfl⟩

/-- Characterize one optional-group step of the matcher. -/
theorem mem_itemsMatches_opt (ps : List Piece) (its : List Item) (s : Str)
    (y : Caps × Str) :
    y ∈ itemsMatches (.optGrp ps :: its) s ↔
      ((∃ r ∈ piecesRests ps s, ∃ z ∈ itemsMatches its r,
          y = (some (s.take (s.length - r.length)) :: z.1, z.2)) ∨
        ∃ z ∈ itemsMatches its s, y = (none :: z.1, z.2)) := by
  simp only [itemsMatches, List.mem_append, List.mem_flatMap, List.mem_map]
  constructor
  · rintro (⟨r, hr, z, hz, rfl⟩ | ⟨z, hz, rfl⟩)
    · exact Or.inl ⟨r, hr, z, hz, rfl⟩
    · exact Or.inr ⟨z, hz, rfl⟩
  · rintro (⟨r, hr, z, hz, rfl⟩ | ⟨z, hz, rfl⟩)
    · exact Or.inl ⟨r, hr, z, hz, rfl⟩
    · exact Or.inr ⟨z, hz, rfl⟩

/-- Characterize one plain-piece step of the matcher. -/
theorem mem_itemsMatches_simple (pc : Piece) (its : List Item) (s : Str)
    (y : Caps × Str) :
    y ∈ itemsMatches (.simple pc :: its) s ↔
      ∃ r ∈ pieceRests pc s, y ∈ itemsMatches its r := by
  simp [itemsMatches, List.mem_flatMap]

/-- Characters inside the `takeWhile` region satisfy the predicate. -/
theorem head_drop_of_lt_takeWhile (p : Char → Bool) (s : Str) (k : Nat)
    (h : k < (s.takeWhile p).length) :
    ∃ c, (s.drop k).head? = some c ∧ p c = true := by
  obtain ⟨rest, hs⟩ := @List.takeWhile_prefix _ s p
  have hg : s[k]? = (s.takeWhile p)[k]? := by
    conv_lhs => rw [← hs]
    rw [List.getElem?_append]
    simp [h]
  have hsome : (s.takeWhile p)[k]? = some (s.takeWhile p)[k] :=
    List.getElem?_eq_getElem h
  refine ⟨(s.takeWhile p)[k], ?_, ?_⟩
  · rw [List.head?_drop, hg, hsome]
  · exact List.mem_takeWhile_imp (List.getElem_mem h)

/-- The first `k` characters are in the `takeWhile` region. -/
theorem take_all_of_le_takeWhile (p : Char → Bool) (s : Str) (k : Nat)
    (h : k ≤ (s.takeWhile p).length) :
    (s.take k).all p = true := by
  obtain ⟨rest, hs⟩ := @List.takeWhile_prefix _ s p
  have : s.take k = (s.takeWhile p).take k := by
    conv_lhs => rw [← hs]
    rw [List.take_append_of_le_length h]
  rw [this]
  rw [List.all_eq_true]
  intro c hc
  exact List.mem_takeWhile_imp (List.mem_of_mem_take hc)


/-- A prefix is recovered by `take` of its length. -/
theorem take_length_of_prefix (pre l : Str) (h : pre <+: l) :
    l.take pre.length = pre := by
  obtain ⟨tl, rfl⟩ := h
  exact List.take_left _ _

/-- `take` one character past an appended prefix. -/
theorem take_len_succ_append (pre : Str) (c : Char) (tl : Str) :
    (pre ++ c :: tl).take (pre.length + 1) = pre ++ [c] := by
  rw [List.take_append]
  rfl

/-- A `flatMap` whose images are singletons is a `map`. -/
theorem flatMap_eq_map_of_singleton {α β : Type} (l : List α) (f : α → List β)
    (g : α → β) (h : ∀ k ∈ l, f k = [g k]) : l.flatMap f = l.map g := by
  induction l with
  | nil => rfl
  | cons a t ih =>
      rw [List.flatMap_cons, List.map_cons, h a (List.mem_cons_self a t),
        ih (fun k hk => h k (List.mem_cons_of_mem a hk))]
      rfl

/-- The pieces of the heading regex's first group `(#+ )`: a match consumes
the whole maximal hash run plus one space, and exists iff the run is
nonempty and followed by a space. -/
theorem piecesRests_hashSpace (v : Str) :
    piecesRests [Piece.rep (fun c => c = '#') true true, Piece.ch (fun c => c = ' ')] v =
      if 1 ≤ (v.takeWhile (fun c => c = '#')).length ∧
          (v.drop ((v.takeWhile (fun c => c = '#')).length)).head? = some ' '
      then [v.drop ((v.takeWhile (fun c => c = '#')).length + 1)]
      else [] := by
  have hsing : ∀ r : Str, piecesRests [Piece.ch (fun c => c = ' ')] r =
      pieceRests (Piece.ch (fun c => c = ' ')) r := by
    intro r
    show (pieceRests (Piece.ch (fun c => c = ' ')) r).flatMap
      (fun r2 => piecesRests [] r2) = _
    have h2 : (fun r2 : Str => piecesRests [] r2) = fun r2 => [r2] := rfl
    rw [h2, List.flatMap_singleton']
  show (pieceRests (Piece.rep (fun c => c = '#') true true) v).flatMap
      (fun r => piecesRests [Piece.ch (fun c => c = ' ')] r) = _
  simp only [hsing]
  have hrep : pieceRests (Piece.rep (fun c => c = '#') true true) v =
      ((countsBetween 1 ((v.takeWhile (fun c => c = '#')).length)).reverse).map
        (fun k => v.drop k) := rfl
  rw [hrep]
  rcases Nat.eq_zero_or_pos (v.takeWhile (fun c => c = '#')).length with h0 | hpos
  · rw [h0, if_neg]
    · rfl
    · rintro ⟨h1, -⟩
      omega
  · obtain ⟨m, hm⟩ : ∃ m, (v.takeWhile (fun c => c = '#')).length = m + 1 :=
      ⟨_, (Nat.succ_pred_eq_of_pos hpos).symm⟩
    rw [hm, countsBetween_succ 1 m (by omega), List.reverse_append,
      List.reverse_singleton, List.singleton_append, List.map_cons, List.flatMap_cons]
    have htail : (((countsBetween 1 m).reverse).map (fun k => v.drop k)).flatMap
        (fun r => pieceRests (Piece.ch (fun c => c = ' ')) r) = [] := by
      rw [List.flatMap_eq_nil_iff]
      intro r hr
      obtain ⟨k, hk, rfl⟩ := List.mem_map.mp hr
      rw [List.mem_reverse] at hk
      have hk2 := (mem_countsBetween 1 m k).mp hk
      obtain ⟨c, hc, hpc⟩ := head_drop_of_lt_takeWhile (fun c => c = '#') v k
        (by rw [hm]; omega)
      have hc' : c = '#' := by simpa using hpc
      subst hc'
      obtain ⟨r2, hr2⟩ := List.head?_eq_some_iff.mp hc
      rw [hr2]
      rfl
    rw [htail, List.append_nil]
    rcases hd : v.drop (m + 1) with _ | ⟨c, r⟩
    · rw [if_neg]
      · rfl
      · rintro ⟨-, h2⟩
        simp at h2
    · by_cases hc : c = ' '
      · subst hc
        rw [if_pos ⟨by omega, rfl⟩]
        have hr : v.drop (m + 1 + 1) = r := by
          rw [← List.tail_drop, hd, List.tail_cons]
        rw [hr]
        rfl
      · rw [if_neg]
        · simp [pieceRests, hc]
        · rintro ⟨-, h2⟩
          simp at h2
          exact hc h2

/-- The heading regex's second group `(.+)` with nothing after it: all
greedy-plus matches over the `.`-run, longest first. -/
theorem itemsMatches_dotPlusGrp (r : Str) :
    itemsMatches [Item.grp [Piece.rep jsDot true true]] r =
      ((countsBetween 1 ((r.takeWhile jsDot).length)).reverse).map
        (fun k => ([some (r.take k)], r.drop k)) := by
  show (piecesRests [Piece.rep jsDot true true] r).flatMap
      (fun r2 => (itemsMatches [] r2).map (fun pr =>
        (some (r.take (r.length - r2.length)) :: pr.1, pr.2))) = _
  have h1 : piecesRests [Piece.rep jsDot true true] r =
      ((countsBetween 1 ((r.takeWhile jsDot).length)).reverse).map (fun k => r.drop k) := by
    show (pieceRests (Piece.rep jsDot true true) r).flatMap
        (fun r2 => piecesRests [] r2) = _
    have h2 : (fun r2 : Str => piecesRests [] r2) = fun r2 => [r2] := rfl
    rw [h2, List.flatMap_singleton']
    rfl
  rw [h1, List.flatMap_map]
  refine flatMap_eq_map_of_singleton _ _ _ ?_
  intro k hk
  rw [List.mem_reverse] at hk
  have hk2 := (mem_countsBetween _ _ _).mp hk
  have hkr : k ≤ r.length :=
    le_trans hk2.2 (List.takeWhile_prefix jsDot).length_le
  have hlen : r.length - (r.drop k).length = k := by
    rw [List.length_drop]
    omega
  rw [hlen]
  rfl

/-- The anchored heading regex computes exactly the spec-side heading
decomposition: the maximal hash run plus one space, then the text up to
the next line terminator. -/
theorem headCaps_eq_specHeadOf (v : Str) : headCaps v = specHeadOf v := by
  have hspec : specHeadOf v = (if v.takeWhile (fun c => c = '#') ≠ [] ∧
      (v.drop ((v.takeWhile (fun c => c = '#')).length)).head? = some ' ' ∧
      (v.drop ((v.takeWhile (fun c => c = '#')).length + 1)).takeWhile jsDot ≠ [] then
        some (v.takeWhile (fun c => c = '#') ++ [' '],
          (v.drop ((v.takeWhile (fun c => c = '#')).length + 1)).takeWhile jsDot)
      else none) := by
    show (if v.takeWhile (fun c => c = '#') ≠ [] ∧
        (v.drop ((v.takeWhile (fun c => c = '#')).length)).head? = some ' ' ∧
        ((v.drop ((v.takeWhile (fun c => c = '#')).length)).tail.takeWhile jsDot) ≠ [] then
          some (v.takeWhile (fun c => c = '#') ++ [' '],
            (v.drop ((v.takeWhile (fun c => c = '#')).length)).tail.takeWhile jsDot)
        else none) = _
    rw [List.tail_drop]
  rw [hspec]
  have hitems : itemsMatches headingItems v =
      (piecesRests [Piece.rep (fun c => c = '#') true true,
          Piece.ch (fun c => c = ' ')] v).flatMap
        (fun r => (itemsMatches [Item.grp [Piece.rep jsDot true true]] r).map
          (fun pr => (some (v.take (v.length - r.length)) :: pr.1, pr.2))) := rfl
  unfold headCaps tryAt
  rw [hitems, piecesRests_hashSpace]
  by_cases hA : 1 ≤ (v.takeWhile (fun c => c = '#')).length ∧
      (v.drop ((v.takeWhile (fun c => c = '#')).length)).head? = some ' '
  · rw [if_pos hA, List.flatMap_singleton, itemsMatches_dotPlusGrp]
    by_cases hT : (v.drop ((v.takeWhile (fun c => c = '#')).length + 1)).takeWhile jsDot = []
    · rw [if_neg (fun hB => hB.2.2 hT), hT]
      rfl
    · have hk0 : ((v.drop ((v.takeWhile (fun c => c = '#')).length + 1)).takeWhile
          jsDot).length ≠ 0 := fun h => hT (List.length_eq_zero.mp h)
      obtain ⟨k, hk⟩ := Nat.exists_eq_succ_of_ne_zero hk0
      rw [Nat.succ_eq_add_one] at hk
      rw [hk, countsBetween_succ 1 k (by omega), List.reverse_append,
        List.reverse_singleton, List.singleton_append, List.map_cons, List.map_cons,
        List.head?_cons, Option.map_some', Option.map_some',
        if_pos ⟨List.length_pos.mp hA.1, hA.2, hT⟩]
    -- remaining: some (capStr …, capStr …) = some (hashes ++ [' '], text)
      obtain ⟨rest2, hrest2⟩ := List.head?_eq_some_iff.mp hA.2
      have htaken : v.take ((v.takeWhile (fun c => c = '#')).length) =
          v.takeWhile (fun c => c = '#') :=
        take_length_of_prefix _ _ (List.takeWhile_prefix _)
      have hv : v = v.takeWhile (fun c => c = '#') ++ ' ' :: rest2 := by
        conv_lhs => rw [← List.take_append_drop ((v.takeWhile (fun c => c = '#')).length) v]
        rw [htaken, hrest2]
      have htake1 : v.take ((v.takeWhile (fun c => c = '#')).length + 1) =
          v.takeWhile (fun c => c = '#') ++ [' '] := by
        have h5 := take_len_succ_append (v.takeWhile (fun c => c = '#')) ' ' rest2
        rw [← hv] at h5
        exact h5
      have hlenv : v.length = (v.takeWhile (fun c => c = '#')).length + rest2.length + 1 := by
        have h6 := congrArg List.length hv
        simp at h6
        omega
      have hsub : v.length -
          (v.drop ((v.takeWhile (fun c => c = '#')).length + 1)).length =
          (v.takeWhile (fun c => c = '#')).length + 1 := by
        rw [List.length_drop]
        omega
      have htk : (v.drop ((v.takeWhile (fun c => c = '#')).length + 1)).take (k + 1) =
          (v.drop ((v.takeWhile (fun c => c = '#')).length + 1)).takeWhile jsDot := by
        rw [← hk]
        exact take_length_of_prefix _ _ (List.takeWhile_prefix _)
      show some (v.take (v.length -
          (v.drop ((v.takeWhile (fun c => c = '#')).length + 1)).length),
        (v.drop ((v.takeWhile (fun c => c = '#')).length + 1)).take (k + 1)) = _
      rw [hsub, htake1, htk]
  · rw [if_neg hA, if_neg (fun hB => hA ⟨List.length_pos.mpr hB.1, hB.2.1⟩)]
    rfl

/-- C4 (amended): the heading-rename detector pairs a deletion run with an
immediately following insertion run, but it matches the anchored heading
pattern against each whole run value - equivalently, against the runs'
FIRST lines - not against the deletion run's last line; with that reading
(`specFirstLinePairs`), the detector is exactly the spec's candidate scan:
pairs survive iff both values start with a heading and the `'#'`-plus-space
prefixes agree textually, and the pair carries the prefix-stripped texts. -/
theorem c4_amended_first_line_pairs (diff : List DiffChange) :
    renamedHeadings diff = specFirstLinePairs diff := by
  unfold renamedHeadings specFirstLinePairs
  simp only [headCaps_eq_specHeadOf]

/-- `takeWhile` walks through an appended block that satisfies the
predicate throughout. -/
theorem all_takeWhile_append (p : Char → Bool) (A B : Str) (h : A.all p = true) :
    (A ++ B).takeWhile p = A ++ B.takeWhile p := by
  induction A with
  | nil => rfl
  | cons c tl ih =>
      rw [List.all_cons, Bool.and_eq_true] at h
      rw [List.cons_append, List.takeWhile_cons_of_pos h.1, ih h.2, List.cons_append]

/-- Every match record of the global scan has its captures produced by a
successful anchored attempt on some suffix of the content. -/
theorem caps_of_findAllAux (items : List Item) (fuel : Nat) :
    ∀ (s : Str) (pos : Nat) (x : Nat × Nat × Caps), x ∈ findAllAux items fuel s pos →
      ∃ s2 len, tryAt items s2 = some (len, x.2.2) := by
  induction fuel with
  | zero =>
      intro s pos x hx
      simp [findAllAux] at hx
  | succ fuel ih =>
      intro s pos x hx
      rcases ht : tryAt items s with _ | ⟨len, caps⟩
      · cases s with
        | nil =>
            simp only [findAllAux, ht] at hx
            simp at hx
        | cons c r =>
            simp only [findAllAux, ht] at hx
            exact ih r (pos + 1) x hx
      · simp only [findAllAux, ht] at hx
        rcases List.mem_cons.mp hx with rfl | h2
        · exact ⟨s, len, ht⟩
        · exact ih _ _ x h2

/-- Separator normalization cannot create a trailing fragment: it only
turns backslashes into slashes, and a slash is not a fragment character. -/
theorem hasTrailingFrag_of_wtp (x : Str) (h : hasTrailingFrag (windowsToPosix x)) :
    hasTrailingFrag x := by
  obtain ⟨a, s0, hsplit, ha, hs0, hall⟩ := h
  unfold windowsToPosix at hsplit
  obtain ⟨l1, l2, rfl, h1, h2⟩ := List.map_eq_append_iff.mp hsplit
  obtain ⟨c, cs, rfl, hc, hcs⟩ := List.map_eq_cons_iff.mp h2
  have hcsharp : c = '#' := by
    by_cases hb : c = bSlash
    · rw [if_pos hb] at hc
      exact absurd hc (by decide)
    · rwa [if_neg hb] at hc
  subst hcsharp
  refine ⟨l1, cs, rfl, ?_, ?_, ?_⟩
  · intro hnil
    rw [hnil] at h1
    exact ha h1.symm
  · intro hnil
    rw [hnil] at hcs
    exact hs0 hcs.symm
  · rw [List.all_eq_true]
    intro c2 hc2
    have hmem : (if c2 = bSlash then '/' else c2) ∈ s0 := by
      rw [← hcs]
      exact List.mem_map_of_mem _ hc2
    have hfc := List.all_eq_true.mp hall _ hmem
    by_cases hb : c2 = bSlash
    · rw [if_pos hb] at hfc
      exact absurd hfc (by decide)
    · rwa [if_neg hb] at hfc

/-- Decompose membership in a single-character piece's remainders. -/
theorem pieceRests_ch_mem (p : Char → Bool) (s u : Str)
    (h : u ∈ pieceRests (.ch p) s) : ∃ c, s = c :: u ∧ p c = true := by
  cases s with
  | nil => simp [pieceRests] at h
  | cons c r =>
      simp only [pieceRests] at h
      by_cases hpc : p c = true
      · rw [if_pos hpc] at h
        exact ⟨c, by rw [List.mem_singleton.mp h], hpc⟩
      · rw [if_neg hpc] at h
        simp at h

/-- Decompose membership in a repetition piece's remainders. -/
theorem pieceRests_rep_mem (p : Char → Bool) (one g : Bool) (s u : Str)
    (h : u ∈ pieceRests (.rep p one g) s) :
    ∃ k, (if one then 1 else 0) ≤ k ∧ k ≤ (s.takeWhile p).length ∧ u = s.drop k := by
  cases g with
  | false =>
      have h2 : u ∈ (countsBetween (if one then 1 else 0)
          ((s.takeWhile p).length)).map (fun k => s.drop k) := h
      obtain ⟨k, hk, rfl⟩ := List.mem_map.mp h2
      have := (mem_countsBetween _ _ _).mp hk
      exact ⟨k, this.1, this.2, rfl⟩
  | true =>
      have h2 : u ∈ ((countsBetween (if one then 1 else 0)
          ((s.takeWhile p).length)).reverse).map (fun k => s.drop k) := h
      obtain ⟨k, hk, rfl⟩ := List.mem_map.mp h2
      rw [List.mem_reverse] at hk
      have := (mem_countsBetween _ _ _).mp hk
      exact ⟨k, this.1, this.2, rfl⟩

/-- Build a remainder of a repetition piece from a valid count. -/
theorem mem_pieceRests_rep (p : Char → Bool) (one g : Bool) (s : Str) (k : Nat)
    (h1 : (if one then 1 else 0) ≤ k) (h2 : k ≤ (s.takeWhile p).length) :
    s.drop k ∈ pieceRests (.rep p one g) s := by
  have hk : k ∈ countsBetween (if one then 1 else 0) ((s.takeWhile p).length) :=
    (mem_countsBetween _ _ _).mpr ⟨h1, h2⟩
  cases g with
  | false =>
      show s.drop k ∈ (countsBetween (if one then 1 else 0)
        ((s.takeWhile p).length)).map (fun k => s.drop k)
      exact List.mem_map_of_mem _ hk
  | true =>
      show s.drop k ∈ ((countsBetween (if one then 1 else 0)
        ((s.takeWhile p).length)).reverse).map (fun k => s.drop k)
      exact List.mem_map_of_mem _ (List.mem_reverse.mpr hk)

/-- Decompose the fragment group `#[^\s\/]+`: the consumed text is a hash
plus a nonempty in-class run. -/
theorem piecesRests_chRep_mem (p q : Char → Bool) (s r2 : Str)
    (h : r2 ∈ piecesRests [.ch p, .rep q true true] s) :
    ∃ c u k, s = c :: u ∧ p c = true ∧ 1 ≤ k ∧ k ≤ (u.takeWhile q).length ∧
      r2 = u.drop k := by
  have h0 : r2 ∈ (pieceRests (.ch p) s).flatMap
      (fun u0 => piecesRests [Piece.rep q true true] u0) := h
  obtain ⟨u0, hu0, hr2⟩ := List.mem_flatMap.mp h0
  obtain ⟨c, hcu, hc⟩ := pieceRests_ch_mem p s u0 hu0
  have h1 : r2 ∈ (pieceRests (.rep q true true) u0).flatMap
      (fun u2 => piecesRests [] u2) := hr2
  simp only [piecesRests] at h1
  rw [List.flatMap_singleton'] at h1
  obtain ⟨k, hk1, hk2, rfl⟩ := pieceRests_rep_mem q true true u0 r2 h1
  exact ⟨c, u0, k, hcu, hc, by simpa using hk1, hk2, rfl⟩

/-- Build a remainder of the fragment group from a valid run length. -/
theorem mem_piecesRests_chRep (p q : Char → Bool) (c : Char) (u : Str) (k : Nat)
    (hc : p c = true) (h1 : 1 ≤ k) (h2 : k ≤ (u.takeWhile q).length) :
    u.drop k ∈ piecesRests [.ch p, .rep q true true] (c :: u) := by
  show u.drop k ∈ (pieceRests (.ch p) (c :: u)).flatMap
    (fun u0 => piecesRests [Piece.rep q true true] u0)
  have hu : pieceRests (.ch p) (c :: u) = [u] := by
    show (if p c then [u] else []) = [u]
    rw [if_pos hc]
  rw [hu, List.flatMap_singleton]
  show u.drop k ∈ (pieceRests (.rep q true true) u).flatMap
    (fun u2 => piecesRests [] u2)
  simp only [piecesRests]
  rw [List.flatMap_singleton']
  exact mem_pieceRests_rep q true true u k (by simpa using h1) h2

/-- Core of the fragment exclusion: in a pattern `(g1)(P+?)(#frag)?…`, the
lazy target group stops before any parseable trailing fragment, so the
group-2 capture of the preferred (JS) match never ends in `#` plus a
nonempty fragment-character run.  Holds for any first group, target class
and trailing items - instantiated with the inline-link and wikilink
regexes. -/
theorem no_trailing_frag_core (g1 : List Piece) (P : Char → Bool) (its : List Item)
    (s : Str) (len : Nat) (caps : Caps)
    (ht : tryAt (Item.grp g1 :: Item.grp [Piece.rep P true false] ::
        Item.optGrp [Piece.ch (fun c => c = '#'), Piece.rep fragChar true true] ::
        its) s = some (len, caps)) :
    ¬ hasTrailingFrag (capStr caps 1) := by
  rintro ⟨a, s0, hsplit, ha, hs0, hall⟩
  unfold tryAt at ht
  rcases hh : (itemsMatches (Item.grp g1 :: Item.grp [Piece.rep P true false] ::
      Item.optGrp [Piece.ch (fun c => c = '#'), Piece.rep fragChar true true] ::
      its) s).head? with _ | y
  · rw [hh] at ht
    simp at ht
  · rw [hh, Option.map_some'] at ht
    have hcaps : y.1 = caps := congrArg Prod.snd (Option.some_inj.mp ht)
    have hh1 : ((piecesRests g1 s).flatMap (fun r =>
        (itemsMatches (Item.grp [Piece.rep P true false] ::
          Item.optGrp [Piece.ch (fun c => c = '#'), Piece.rep fragChar true true] ::
          its) r).map (fun pr =>
            (some (s.take (s.length - r.length)) :: pr.1, pr.2)))).head? = some y := hh
    obtain ⟨pre, r1, post, hsplit1, hpre1, hhead1⟩ := head?_flatMap_split _ _ _ hh1
    rw [List.head?_map] at hhead1
    rcases hz1 : (itemsMatches (Item.grp [Piece.rep P true false] ::
        Item.optGrp [Piece.ch (fun c => c = '#'), Piece.rep fragChar true true] ::
        its) r1).head? with _ | z1
    · rw [hz1] at hhead1
      simp at hhead1
    · rw [hz1, Option.map_some'] at hhead1
      have hy : y = (some (s.take (s.length - r1.length)) :: z1.1, z1.2) :=
        (Option.some_inj.mp hhead1).symm
      have hm_le : (r1.takeWhile P).length ≤ r1.length :=
        (List.takeWhile_prefix P).length_le
      have hpr2 : piecesRests [Piece.rep P true false] r1 =
          (countsBetween 1 ((r1.takeWhile P).length)).map (fun k => r1.drop k) := by
        show (pieceRests (Piece.rep P true false) r1).flatMap
            (fun u => piecesRests [] u) = _
        simp only [piecesRests]
        rw [List.flatMap_singleton']
        rfl
      have hz1b : ((piecesRests [Piece.rep P true false] r1).flatMap (fun r2 =>
          (itemsMatches (Item.optGrp [Piece.ch (fun c => c = '#'),
            Piece.rep fragChar true true] :: its) r2).map (fun pr =>
              (some (r1.take (r1.length - r2.length)) :: pr.1, pr.2)))).head? =
          some z1 := hz1
      rw [hpr2, List.flatMap_map] at hz1b
      obtain ⟨t, ht1, htm, hft, hmin⟩ := lazy_flatMap_min _ _ _ hz1b
      rw [List.head?_map] at hft
      rcases hz2 : (itemsMatches (Item.optGrp [Piece.ch (fun c => c = '#'),
          Piece.rep fragChar true true] :: its) (r1.drop t)).head? with _ | z2
      · rw [hz2] at hft
        simp at hft
      · rw [hz2, Option.map_some'] at hft
        have hz1eq : z1 = (some (r1.take (r1.length - (r1.drop t).length)) ::
            z2.1, z2.2) := (Option.some_inj.mp hft).symm
        have htr1 : t ≤ r1.length := le_trans htm hm_le
        have htake_t : r1.length - (r1.drop t).length = t := by
          rw [List.length_drop]
          omega
        have hcap : capStr caps 1 = r1.take t := by
          rw [← hcaps, hy, hz1eq]
          show capStr (some (s.take (s.length - r1.length)) ::
            some (r1.take (r1.length - (r1.drop t).length)) :: z2.1) 1 = r1.take t
          unfold capStr
          rw [List.getElem?_cons_succ, List.getElem?_cons_zero, htake_t]
          rfl
        have hsplit' : r1.take t = a ++ '#' :: s0 := by
          rw [← hcap]
          exact hsplit
        have hz2mem : z2 ∈ itemsMatches (Item.optGrp [Piece.ch (fun c => c = '#'),
            Piece.rep fragChar true true] :: its) (r1.drop t) :=
          List.mem_of_mem_head? hz2
        suffices hcon : ∀ A rAfter, r1.drop t = A ++ rAfter →
            A.all fragChar = true → itemsMatches its rAfter ≠ [] → False by
          rcases (mem_itemsMatches_opt _ _ _ _).mp hz2mem with
            ⟨r2, hr2, w, hw, -⟩ | ⟨w, hw, -⟩
          · obtain ⟨c, u, k, hcu, hc, hk1, hk2, rfl⟩ :=
              piecesRests_chRep_mem _ _ _ _ hr2
            have hc' : c = '#' := by simpa using hc
            subst hc'
            refine hcon ('#' :: u.take k) (u.drop k) ?_ ?_ (List.ne_nil_of_mem hw)
            · rw [hcu, List.cons_append, List.take_append_drop]
            · rw [List.all_cons, take_all_of_le_takeWhile fragChar u k hk2]
              rfl
          · exact hcon [] (r1.drop t) rfl rfl (List.ne_nil_of_mem hw)
        intro A rAfter hAr hAall hne
        have htlen : t = a.length + 1 + s0.length := by
          have hlen := congrArg List.length hsplit'
          rw [List.length_take] at hlen
          simp at hlen
          omega
        have h1a : 1 ≤ a.length := List.length_pos.mpr ha
        have hfmin := hmin a.length h1a (by omega)
        have hr1eq : r1 = a ++ '#' :: (s0 ++ (A ++ rAfter)) := by
          conv_lhs => rw [← List.take_append_drop t r1]
          rw [hsplit', hAr]
          simp [List.append_assoc]
        have hdrop' : r1.drop a.length = '#' :: (s0 ++ (A ++ rAfter)) := by
          conv_lhs => rw [hr1eq]
          exact List.drop_left _ _
        have hAall2 : (s0 ++ A).all fragChar = true := by
          rw [List.all_append, hall, hAall]
          rfl
        have htw2 : (s0 ++ (A ++ rAfter)).takeWhile fragChar =
            (s0 ++ A) ++ rAfter.takeWhile fragChar := by
          rw [← List.append_assoc]
          exact all_takeWhile_append fragChar (s0 ++ A) rAfter hAall2
        have hktw : s0.length + A.length ≤
            ((s0 ++ (A ++ rAfter)).takeWhile fragChar).length := by
          rw [htw2, List.length_append, List.length_append]
          omega
        have hs0pos : 1 ≤ s0.length + A.length := by
          have := List.length_pos.mpr hs0
          omega
        have hmemP := mem_piecesRests_chRep (fun c => c = '#') fragChar '#'
          (s0 ++ (A ++ rAfter)) (s0.length + A.length) (by decide) hs0pos hktw
        have hdropeq : (s0 ++ (A ++ rAfter)).drop (s0.length + A.length) = rAfter := by
          rw [← List.append_assoc, ← List.length_append]
          exact List.drop_left _ _
        rw [hdropeq] at hmemP
        obtain ⟨w, hw⟩ := List.exists_mem_of_ne_nil _ hne
        have hmemOpt : ((some ((r1.drop a.length).take ((r1.drop a.length).length -
            rAfter.length)) : Option Str) :: w.1, w.2) ∈
            itemsMatches (Item.optGrp [Piece.ch (fun c => c = '#'),
              Piece.rep fragChar true true] :: its) (r1.drop a.length) := by
          rw [hdrop']
          exact (mem_itemsMatches_opt _ _ _ _).mpr (Or.inl ⟨rAfter, hmemP, w, hw, rfl⟩)
        have hne2 : itemsMatches (Item.optGrp [Piece.ch (fun c => c = '#'),
            Piece.rep fragChar true true] :: its) (r1.drop a.length) ≠ [] :=
          List.ne_nil_of_mem hmemOpt
        exact hne2 (List.map_eq_nil_iff.mp hfmin)

/-- Fragment exclusion lifted to `getMatchingLinks` for any family of the
guarded shape. -/
theorem no_trailing_frag_family (g1 : List Piece) (P : Char → Bool) (its : List Item)
    (content : Str) (rfe : Bool) (occ : LinkOcc)
    (h : occ ∈ getMatchingLinks (Item.grp g1 :: Item.grp [Piece.rep P true false] ::
        Item.optGrp [Piece.ch (fun c => c = '#'), Piece.rep fragChar true true] ::
        its) (some content) rfe) :
    ¬ hasTrailingFrag occ.target := by
  intro hfrag
  simp only [getMatchingLinks] at h
  split at h
  · simp at h
  · obtain ⟨m, hm, rfl⟩ := List.mem_map.mp h
    obtain ⟨s2, len2, ht⟩ := caps_of_findAllAux _ _ _ _ _ hm
    exact no_trailing_frag_core g1 P its s2 len2 m.2.2 ht
      (hasTrailingFrag_of_wtp _ hfrag)

/-- C7 (amended): fragment exclusion holds for the inline-link and
double-bracket families but not for `<img>` references: every occurrence
yielded for those two families has a target with no trailing `#fragment`
(no decomposition into a nonempty base, `'#'`, and a nonempty
fragment-character run), because the lazy target group stops before any
parseable fragment; the `<img>` pattern has no fragment group, and
`c7_counterexample` shows it yielding a target that keeps its fragment. -/
theorem c7_amended_md_wiki (content : Str) (occ : LinkOcc)
    (h : occ ∈ getMatchingLinks mdLinkGlobalItems (some content) true ∨
         occ ∈ getMatchingLinks wikilinkItems (some content) false) :
    ¬ hasTrailingFrag occ.target := by
  rcases h with h | h
  · exact no_trailing_frag_family _ _ _ content true occ h
  · exact no_trailing_frag_family _ _ _ content false occ h


/-- Witness for the C7 amended theorem at a concrete inline link. -/
theorem c7_amended_md_wiki_witness :
    (⟨"b.md".data, 0, 4, true⟩ : LinkOcc) ∈
      getMatchingLinks mdLinkGlobalItems (some "[a](b.md#x)".data) true ∧
    ¬ hasTrailingFrag (LinkOcc.target ⟨"b.md".data, 0, 4, true⟩) :=
  ⟨by decide, c7_amended_md_wiki "[a](b.md#x)".data ⟨"b.md".data, 0, 4, true⟩
    (Or.inl (by decide))⟩

/-- A suffix is recovered by `drop` of the length difference. -/
theorem drop_sub_of_suffix (s r : Str) (h : r <:+ s) :
    s.drop (s.length - r.length) = r := by
  obtain ⟨pre, rfl⟩ := h
  have hlen : (pre ++ r).length - r.length = pre.length := by simp
  rw [hlen, List.drop_left]

/-- Every match record of the global scan sits at an offset where the
anchored attempt succeeds with exactly its captures and length. -/
theorem pos_of_findAllAux (items : List Item) (fuel : Nat) :
    ∀ (s : Str) (pos : Nat) (x : Nat × Nat × Caps), x ∈ findAllAux items fuel s pos →
      ∃ d, x.1 = pos + d ∧ tryAt items (s.drop d) = some (x.2.1, x.2.2) := by
  induction fuel with
  | zero =>
      intro s pos x hx
      simp [findAllAux] at hx
  | succ fuel ih =>
      intro s pos x hx
      rcases ht : tryAt items s with _ | ⟨len, caps⟩
      · cases s with
        | nil =>
            simp only [findAllAux, ht] at hx
            simp at hx
        | cons c r =>
            simp only [findAllAux, ht] at hx
            obtain ⟨d, hd, htry⟩ := ih r (pos + 1) x hx
            exact ⟨d + 1, by omega, htry⟩
      · simp only [findAllAux, ht] at hx
        rcases List.mem_cons.mp hx with rfl | h2
        · exact ⟨0, by omega, by rw [List.drop_zero]; exact ht⟩
        · obtain ⟨d, hd, htry⟩ := ih _ _ x h2
          refine ⟨max len 1 + d, by omega, ?_⟩
          have hdd : s.drop (max len 1 + d) = (s.drop (max len 1)).drop d := by
            rw [List.drop_drop, Nat.add_comm]
          rw [hdd]
          exact htry

/-- In a two-leading-group pattern, group 2's capture is the text sitting
right after group 1's capture in the subject. -/
theorem tryAt_grp_grp_sub (g1 g2 : List Piece) (rest : List Item) (s2 : Str)
    (len : Nat) (caps : Caps)
    (ht : tryAt (Item.grp g1 :: Item.grp g2 :: rest) s2 = some (len, caps)) :
    (s2.drop ((capStr caps 0).length)).take ((capStr caps 1).length) =
      capStr caps 1 := by
  unfold tryAt at ht
  rcases hh : (itemsMatches (Item.grp g1 :: Item.grp g2 :: rest) s2).head? with _ | y
  · rw [hh] at ht
    simp at ht
  · rw [hh, Option.map_some'] at ht
    have hmem : y ∈ itemsMatches (Item.grp g1 :: Item.grp g2 :: rest) s2 :=
      List.mem_of_mem_head? hh
    have hcaps : y.1 = caps := congrArg Prod.snd (Option.some_inj.mp ht)
    obtain ⟨r1, hr1, z, hz, hyeq⟩ := (mem_itemsMatches_grp _ _ _ _).mp hmem
    obtain ⟨r2, hr2, w, hw, hzeq⟩ := (mem_itemsMatches_grp _ _ _ _).mp hz
    have hsuf1 : r1 <:+ s2 := piecesRests_suffix _ _ _ hr1
    have hsuf2 : r2 <:+ r1 := piecesRests_suffix _ _ _ hr2
    have hl1 : r1.length ≤ s2.length := hsuf1.length_le
    have hl2 : r2.length ≤ r1.length := hsuf2.length_le
    have hcaps2 : caps = some (s2.take (s2.length - r1.length)) ::
        some (r1.take (r1.length - r2.length)) :: w.1 := by
      rw [← hcaps, hyeq, hzeq]
    rw [hcaps2]
    have hc0 : capStr (some (s2.take (s2.length - r1.length)) ::
        some (r1.take (r1.length - r2.length)) :: w.1) 0 =
        s2.take (s2.length - r1.length) := by
      unfold capStr
      rw [List.getElem?_cons_zero]
      rfl
    have hc1 : capStr (some (s2.take (s2.length - r1.length)) ::
        some (r1.take (r1.length - r2.length)) :: w.1) 1 =
        r1.take (r1.length - r2.length) := by
      unfold capStr
      rw [List.getElem?_cons_succ, List.getElem?_cons_zero]
      rfl
    rw [hc0, hc1]
    have hlen0 : (s2.take (s2.length - r1.length)).length = s2.length - r1.length := by
      rw [List.length_take]
      omega
    have hdrop : s2.drop ((s2.take (s2.length - r1.length)).length) = r1 := by
      rw [hlen0]
      exact drop_sub_of_suffix s2 r1 hsuf1
    rw [hdrop]
    have hlen1 : (r1.take (r1.length - r2.length)).length = r1.length - r2.length := by
      rw [List.length_take]
      omega
    rw [hlen1]

/-- Occurrences of a two-leading-group family are anchored in the content:
the raw target text sits at the reported offset. -/
theorem occAnchored_family (g1 g2 : List Piece) (rest : List Item)
    (content : Str) (rfe : Bool) (occ : LinkOcc)
    (h : occ ∈ getMatchingLinks (Item.grp g1 :: Item.grp g2 :: rest)
      (some content) rfe) : occAnchored content occ := by
  simp only [getMatchingLinks] at h
  split at h
  · simp at h
  · obtain ⟨m, hm, rfl⟩ := List.mem_map.mp h
    obtain ⟨d, hd, htry⟩ := pos_of_findAllAux _ _ _ _ _ hm
    have hd0 : d = m.1 := by omega
    subst hd0
    have hsub := tryAt_grp_grp_sub _ _ _ _ _ _ htry
    refine ⟨m.1 + (capStr m.2.2 0).length, capStr m.2.2 1, rfl, rfl, rfl, ?_⟩
    have hdd : content.drop (m.1 + (capStr m.2.2 0).length) =
        (content.drop m.1).drop ((capStr m.2.2 0).length) := by
      rw [List.drop_drop, Nat.add_comm]
    rw [hdd]
    exact hsub

/-- Every occurrence of the full scan is anchored in the content. -/
theorem occAnchored_getAllLinks (content : Str) (occ : LinkOcc)
    (h : occ ∈ getAllLinks (some content)) : occAnchored content occ := by
  simp only [getAllLinks] at h
  rcases List.mem_append.mp h with h2 | h2
  · rcases List.mem_append.mp h2 with h3 | h3
    · exact occAnchored_family _ _ _ content true occ h3
    · exact occAnchored_family _ _ _ content true occ h3
  · exact occAnchored_family _ _ _ content false occ h2

/-- C1 (amended): for RENAME events the claim holds: every yielded edit's
range is exactly the occurrence's `(line, col)`-`(line, col + |target|)`
span, and the occurrence is anchored - the raw target text really sits at
that offset of a scanned (glob-filtered) document's content.  For SAVE
events the claim fails: anchor edits replace the whole line
(`c1_counterexample`), not just the target substring. -/
theorem c1_amended_rename_ranges (env : JsEnv) (pb pa : Str) (docs : List Doc)
    (opts : Options) (e : Edit)
    (he : e ∈ pureGetEdits env (.rename pb pa) docs opts) :
    ∃ f occ, f ∈ filteredDocs env opts docs ∧
      occ ∈ getAllLinks (some f.content) ∧ occAnchored f.content occ ∧
      e.range = occRange occ ∧
      e.range.start.line = occ.line ∧ e.range.start.character = occ.col ∧
      e.range.stop.line = occ.line ∧
      e.range.stop.character = occ.col + occ.target.length := by
  have he2 : e ∈ handleRenameEvent env pb pa docs opts := he
  simp only [handleRenameEvent] at he2
  split at he2
  · simp at he2
  · rcases List.mem_append.mp he2 with hr | hr
    · simp only [rebaseEdits] at hr
      obtain ⟨occ, hocc, hfo⟩ := List.mem_filterMap.mp hr
      rcases hfind : (filteredDocs env opts docs).find? (fun f =>
          posixNormalize f.path = posixNormalize (windowsToPosix pa)) with _ | f
      · rw [hfind] at hocc
        simp [getAllLinks, getMatchingLinks] at hocc
      · rw [hfind] at hocc
        simp only [Option.map_some'] at hocc
        have hf : f ∈ filteredDocs env opts docs := List.mem_of_find?_eq_some hfind
        split at hfo
        · simp at hfo
        · have he3 := Option.some_inj.mp hfo
          subst he3
          exact ⟨f, occ, hf, hocc, occAnchored_getAllLinks _ _ hocc,
            rfl, rfl, rfl, rfl, rfl⟩
    · simp only [repairEdits] at hr
      obtain ⟨file, hfile, hin⟩ := List.mem_flatMap.mp hr
      obtain ⟨occ, hocc, hfo⟩ := List.mem_filterMap.mp hin
      split at hfo <;> split at hfo <;> try split at hfo
      all_goals first
        | (have he3 := Option.some_inj.mp hfo
           subst he3
           exact ⟨file, occ, hfile, hocc, occAnchored_getAllLinks _ _ hocc,
             rfl, rfl, rfl, rfl, rfl⟩)
        | simp at hfo

/-- Witness for the C1 amended theorem at a concrete rename. -/
theorem c1_amended_rename_ranges_witness :
    ({ path := "b.md".data, range := ⟨⟨0, 4⟩, ⟨0, 8⟩⟩,
       newText := "b.md".data, requiresPathToExist := none } : Edit) ∈
      pureGetEdits envFF (.rename "a.md".data "b.md".data)
        [⟨"b.md".data, "[x](a.md)".data⟩] optsNone ∧
    ∃ f occ, f ∈ filteredDocs envFF optsNone [⟨"b.md".data, "[x](a.md)".data⟩] ∧
      occ ∈ getAllLinks (some f.content) ∧ occAnchored f.content occ ∧
      ({ path := "b.md".data, range := ⟨⟨0, 4⟩, ⟨0, 8⟩⟩,
         newText := "b.md".data, requiresPathToExist := none } : Edit).range =
        occRange occ ∧
      (⟨⟨0, 4⟩, ⟨0, 8⟩⟩ : TextRange).start.line = occ.line ∧
      (⟨⟨0, 4⟩, ⟨0, 8⟩⟩ : TextRange).start.character = occ.col ∧
      (⟨⟨0, 4⟩, ⟨0, 8⟩⟩ : TextRange).stop.line = occ.line ∧
      (⟨⟨0, 4⟩, ⟨0, 8⟩⟩ : TextRange).stop.character = occ.col + occ.target.length :=
  ⟨by decide,
   c1_amended_rename_ranges envFF "a.md".data "b.md".data
     [⟨"b.md".data, "[x](a.md)".data⟩] optsNone _ (by decide)⟩

end MLU
